import Mathlib

/-!
Verification of the storage-slot labeling engine of the `trace` repository.

The engine under study is `src/lib/slots/engine.ts` (mapping / nested-mapping /
dynamic-array slot computation, candidate-key extraction, and the slot
resolver `findLayoutInfoAtSlot`), together with the legacy
`src/lib/slot-engine.ts` (whose `normalizeSlot` the resolver claims rely on).

Modeling conventions:
- hex strings (`Hex` in the source) are `List Char`, including the `0x` prefix;
- bytes are `Nat` values below 256;
- a thrown JavaScript exception is `Option.none`;
- `keccak256` (from the `tevm`/`viem` dependency) is implemented concretely
  below (Keccak-f[1600], rate 1088, Keccak padding), so every slot computation
  is executable.
-/

/-- Hex digit test on a character (0-9, a-f, A-F), by code point. -/
def isHexDigit (c : Char) : Bool :=
  (48 ≤ c.toNat && c.toNat ≤ 57) || (97 ≤ c.toNat && c.toNat ≤ 102)
    || (65 ≤ c.toNat && c.toNat ≤ 70)

/-- Numeric value of a hex digit character. -/
def hexVal (c : Char) : Nat :=
  if c.toNat ≤ 57 then c.toNat - 48
  else if c.toNat ≤ 70 then c.toNat - 55
  else c.toNat - 87

/-- Lower-case hex character of a value below 16. -/
def hexChar (v : Nat) : Char :=
  if v < 10 then Char.ofNat (48 + v) else Char.ofNat (87 + v)

/-- ASCII lower-casing of one character (how `toLowerCase` acts on hex strings). -/
def toLowerCh (c : Char) : Char :=
  if 65 ≤ c.toNat && c.toNat ≤ 90 then Char.ofNat (c.toNat + 32) else c

/-- Parse an even-length hex digit string into bytes; `none` on an invalid digit
(models the inner loop of viem's `hexToBytes`, which throws on a bad character). -/
def hexPairsToBytes : List Char → Option (List Nat)
  | [] => some []
  | c1 :: c2 :: rest =>
    if isHexDigit c1 && isHexDigit c2 then
      (hexPairsToBytes rest).map (fun bs => (16 * hexVal c1 + hexVal c2) :: bs)
    else none
  | [_] => none

/-- Model of viem's `hexToBytes` on a `0x`-prefixed string: drop the two prefix
characters, left-pad an odd-length body with one `0` digit, then parse pairs. -/
def hexToBytesViem (s : List Char) : Option (List Nat) :=
  let body := s.drop 2
  let body2 := if body.length % 2 = 1 then '0' :: body else body
  hexPairsToBytes body2

/-- Lower-case hex characters of a byte list (viem's `bytesToHex`, without prefix). -/
def bytesToHexChars : List Nat → List Char
  | [] => []
  | b :: rest => hexChar (b / 16) :: hexChar (b % 16) :: bytesToHexChars rest

/-! ### Keccak-256 (the Ethereum variant used by `tevm`'s `keccak256`) -/

/-- The lane mask 2 ^ 64 - 1. -/
def mask64 : Nat := 18446744073709551615

/-- Left-rotation of a 64-bit lane. -/
def rotl64 (n r : Nat) : Nat := ((n <<< r) ||| (n >>> (64 - r))) &&& mask64

/-- Bitwise complement of a 64-bit lane. -/
def complement64 (n : Nat) : Nat := n ^^^ mask64

/-- The 24 Keccak-f[1600] round constants. -/
def keccakRC : List Nat :=
  [0x0000000000000001, 0x0000000000008082, 0x800000000000808a, 0x8000000080008000,
   0x000000000000808b, 0x0000000080000001, 0x8000000080008081, 0x8000000000008009,
   0x000000000000008a, 0x0000000000000088, 0x0000000080008009, 0x000000008000000a,
   0x000000008000808b, 0x800000000000008b, 0x8000000000008089, 0x8000000000008003,
   0x8000000000008002, 0x8000000000000080, 0x000000000000800a, 0x800000008000000a,
   0x8000000080008081, 0x8000000000008080, 0x0000000080000001, 0x8000000080008008]

/-- Rho rotation offsets, indexed by lane `x + 5 * y`, row by row. -/
def rotOffsets : List Nat :=
  [0, 1, 62, 28, 27] ++ [36, 44, 6, 55, 20] ++ [3, 10, 43, 25, 39] ++
    [41, 45, 15, 21, 8] ++ [18, 2, 61, 56, 14]

/-- Lane `(x, y)` of a 25-lane state. -/
def lane (st : List Nat) (x y : Nat) : Nat := st.getD (x + 5 * y) 0

/-- Keccak theta step. -/
def theta (st : List Nat) : List Nat :=
  let col := fun x => lane st x 0 ^^^ lane st x 1 ^^^ lane st x 2 ^^^ lane st x 3 ^^^ lane st x 4
  let d := fun x => col ((x + 4) % 5) ^^^ rotl64 (col ((x + 1) % 5)) 1
  (List.range 25).map (fun i => st.getD i 0 ^^^ d (i % 5))

/-- Keccak rho and pi steps combined: output lane `(xB, yB)` is the rotated
input lane `(xB + 3 yB mod 5, xB)`. -/
def rhoPi (st : List Nat) : List Nat :=
  (List.range 25).map (fun i =>
    let xB := i % 5
    let yB := i / 5
    let x := (xB + 3 * yB) % 5
    let y := xB
    rotl64 (lane st x y) (rotOffsets.getD (x + 5 * y) 0))

/-- Keccak chi step. -/
def chi (st : List Nat) : List Nat :=
  (List.range 25).map (fun i =>
    let x := i % 5
    let y := i / 5
    lane st x y ^^^ (complement64 (lane st ((x + 1) % 5) y) &&& lane st ((x + 2) % 5) y))

/-- One Keccak-f round (theta, rho, pi, chi, iota). -/
def keccakRound (st : List Nat) (rc : Nat) : List Nat :=
  match chi (rhoPi (theta st)) with
  | [] => []
  | a :: rest => (a ^^^ rc) :: rest

/-- The full Keccak-f[1600] permutation. -/
def keccakF (st : List Nat) : List Nat := keccakRC.foldl keccakRound st

/-- A 64-bit lane from up to eight little-endian bytes. -/
def laneOfBytes (bs : List Nat) : Nat := bs.foldr (fun b acc => acc * 256 + b) 0

/-- The eight little-endian bytes of a 64-bit lane. -/
def laneBytes (l : Nat) : List Nat :=
  [l % 256, l / 256 % 256, l / 65536 % 256, l / 16777216 % 256,
   l / 4294967296 % 256, l / 1099511627776 % 256, l / 281474976710656 % 256,
   l / 72057594037927936 % 256]

/-- Absorb one 136-byte block into the state and permute. -/
def absorbBlock (st : List Nat) (block : List Nat) : List Nat :=
  keccakF ((List.range 25).map (fun j =>
    st.getD j 0 ^^^ (if j < 17 then laneOfBytes ((block.drop (8 * j)).take 8) else 0)))

/-- Keccak multi-rate padding (domain byte 0x01, final bit 0x80). -/
def keccakPad (msg : List Nat) : List Nat :=
  let padLen := 136 - msg.length % 136
  if padLen = 1 then msg ++ [129]
  else msg ++ 1 :: (List.replicate (padLen - 2) 0 ++ [128])

/-- Absorb `n` consecutive 136-byte blocks. -/
def absorbAll (st : List Nat) (padded : List Nat) : Nat → List Nat
  | 0 => st
  | Nat.succ k => absorbAll (absorbBlock st (padded.take 136)) (padded.drop 136) k

/-- Keccak-256 of a byte list, producing 32 bytes. -/
def keccak256Bytes (msg : List Nat) : List Nat :=
  let padded := keccakPad msg
  let st := absorbAll (List.replicate 25 0) padded (padded.length / 136)
  (st.take 4).foldr (fun l acc => laneBytes l ++ acc) []

/-- Model of `keccak256` from `tevm`/`viem` on a `0x`-prefixed hex string:
convert to bytes (throwing on invalid digits), hash, and render as
lower-case `0x`-prefixed hex. -/
def keccak256Hex (s : List Char) : Option (List Char) :=
  (hexToBytesViem s).map (fun bs => '0' :: 'x' :: bytesToHexChars (keccak256Bytes bs))

/-! ### Data model (`src/lib/types.ts`, as the engine uses it) -/

/-- A candidate mapping key or array index (`MappingKey`): the padded 32-byte
hex form, the decoded value it was derived from (carried but never consulted by
the engine; modeled by its canonical hex rendering), and the declared ABI type
when one is known. -/
structure MappingKey where
  hex : List Char
  decoded : Option (List Char) := none
  type : Option (List Char) := none
deriving DecidableEq, Repr

/-- Storage-layout encodings (the `solc` storage-layout `encoding` strings). -/
inductive Encoding where
  | inplace
  | mapping
  | dynamicArray
  | bytes
deriving DecidableEq, Repr

/-- A storage-layout entry (`StorageSlotInfo`): label, assigned slot hex string,
encoding, whether the slot is computed at runtime, declared type, packing
offset, and the value/key/base types of mapping and array roots. -/
structure StorageSlotInfo where
  label : List Char
  slot : List Char
  encoding : Encoding
  isComputed : Bool := false
  type : Option (List Char) := none
  offset : Option Nat := none
  valueType : Option (List Char) := none
  keyType : Option (List Char) := none
  baseType : Option (List Char) := none
deriving DecidableEq, Repr

/-- Match categories of a resolver result. -/
inductive MatchType where
  | exact
  | mapping
  | nestedMapping
  | array
deriving DecidableEq, Repr

/-- A labeled resolver result (`SlotLabelResult`). -/
structure SlotLabelResult where
  label : List Char
  slot : List Char
  matchType : MatchType
  type : Option (List Char) := none
  offset : Option Nat := none
  keys : Option (List MappingKey) := none
  index : Option (List Char) := none
deriving DecidableEq, Repr

/-- Infix (substring) test, modeling `String.prototype.includes`. -/
def hasInfix (pat : List Char) : List Char → Bool
  | [] => pat.isEmpty
  | c :: rest => pat.isPrefixOf (c :: rest) || hasInfix pat rest

/-- Model of `valueType?.includes("mapping")` with optional chaining (undefined is falsy). -/
def includesMapping : Option (List Char) → Bool
  | some s => hasInfix "mapping".data s
  | none => false

/-- JavaScript `String.prototype.replace("0x", "")`: remove the first
occurrence of `0x` anywhere in the string. -/
def replaceFirst0x : List Char → List Char
  | [] => []
  | [c] => [c]
  | c1 :: c2 :: rest =>
    if c1 == '0' && c2 == 'x' then rest else c1 :: replaceFirst0x (c2 :: rest)

/-! ### Slot computation (`src/lib/slots/engine.ts`) -/

/-- Model of `computeMappingSlot` (engine.ts line 18): keccak256 of the re-prefixed
concatenation of the key hex and the base-slot hex, each with its first `0x`
occurrence removed; the key comes first. `none` models a keccak256 throw on
invalid hex digits. -/
def computeMappingSlot (baseSlot : List Char) (key : MappingKey) : Option (List Char) :=
  keccak256Hex ('0' :: 'x' :: (replaceFirst0x key.hex ++ replaceFirst0x baseSlot))

/-- The `forEach` accumulation inside `computeNestedMappingSlot`. -/
def nestedMappingLoop (slot : List Char) : List MappingKey → Option (List Char)
  | [] => some slot
  | k :: ks => (computeMappingSlot slot k).bind (fun s => nestedMappingLoop s ks)

/-- Model of `computeNestedMappingSlot` (engine.ts line 26): the base slot unchanged when
there are no keys, otherwise `computeMappingSlot` applied for each key in order. -/
def computeNestedMappingSlot (baseSlot : List Char) (keys : List MappingKey) :
    Option (List Char) :=
  if keys.isEmpty then some baseSlot
  else nestedMappingLoop baseSlot keys

/-- Model of viem's `hexToBigInt` (JavaScript `BigInt(hex)`) on a `0x`-prefixed
string: parse the hex digits; throw (`none`) when the body is empty or a digit
is invalid. The source only applies it to `Hex`-typed strings. -/
def jsBigIntHex : List Char → Option Nat
  | c1 :: c2 :: rest =>
    if c1 == '0' && c2 == 'x' then
      if rest.isEmpty || !(rest.all isHexDigit) then none
      else some (rest.foldl (fun acc c => 16 * acc + hexVal c) 0)
    else none
  | _ => none

/-- Little-endian minimal hex digits of a natural number. -/
def hexDigitsLE (n : Nat) : List Char :=
  if h : n = 0 then [] else hexChar (n % 16) :: hexDigitsLE (n / 16)
termination_by n
decreasing_by exact Nat.div_lt_self (Nat.pos_of_ne_zero h) (by norm_num)

/-- JavaScript `toString(16)`: minimal lower-case big-endian digits, `0` for zero. -/
def minHexDigits (n : Nat) : List Char :=
  if n = 0 then ['0'] else (hexDigitsLE n).reverse

/-- viem `toHex` on a numeric value (no size option). -/
def toHexNat (n : Nat) : List Char := '0' :: 'x' :: minHexDigits n

/-- viem `toHex(value, { size: 32 })`: bounds-check against 2^256 (throwing
`IntegerOutOfRangeError`, modeled as `none`) then left-pad to 64 digits. -/
def toHexSize32 (n : Nat) : Option (List Char) :=
  if n < 2 ^ 256 then
    some ('0' :: 'x' :: (List.replicate (64 - (minHexDigits n).length) '0' ++ minHexDigits n))
  else none

/-- Model of `computeArraySlot` (engine.ts line 42):
`toHex(hexToBigInt(keccak256(baseSlot)) + index, { size: 32 })`. -/
def computeArraySlot (baseSlot : List Char) (index : Nat) : Option (List Char) := do
  let h ← keccak256Hex baseSlot
  let v ← jsBigIntHex h
  toHexSize32 (v + index)

/-- Model of `isValidArrayIndex` (engine.ts line 274): the hex value is below the
1,000,000 limit (the `≥ 0` conjunct is vacuous over naturals); `none` when
`hexToBigInt` throws. -/
def isValidArrayIndex (index : List Char) : Option Bool :=
  (jsBigIntHex index).map (fun v => decide (v < 1000000))

/-! ### The resolver `findLayoutInfoAtSlot` (engine.ts line 136) -/

/-- Step 1: the non-computed layout entries whose slot string equals the
observed slot (the `slotToInfo` group for this slot). -/
def directMatchesAt (slot : List Char) (storageLayout : List StorageSlotInfo) :
    List StorageSlotInfo :=
  storageLayout.filter (fun item => !item.isComputed && item.slot == slot)

/-- The sort key `offset ?? 0`. -/
def offKey (i : StorageSlotInfo) : Nat := i.offset.getD 0

/-- Stable insertion by ascending offset. -/
def insertByOffset (a : StorageSlotInfo) : List StorageSlotInfo → List StorageSlotInfo
  | [] => [a]
  | b :: l => if offKey a ≤ offKey b then a :: b :: l else b :: insertByOffset a l

/-- Stable sort by ascending offset (ES2019+ `Array.prototype.sort` with the
source's numeric comparator is stable). -/
def sortByOffset : List StorageSlotInfo → List StorageSlotInfo
  | [] => []
  | a :: l => insertByOffset a (sortByOffset l)

/-- An `exact` match for a direct layout entry. -/
def exactResult (slot : List Char) (m : StorageSlotInfo) : SlotLabelResult :=
  { label := m.label, slot := slot, matchType := MatchType.exact, type := m.type,
    offset := m.offset }

/-- Step 2's root filter: mapping-encoded entries whose value type is not
itself a mapping. -/
def mappingRootsOf (storageLayout : List StorageSlotInfo) : List StorageSlotInfo :=
  storageLayout.filter
    (fun item => item.encoding == Encoding.mapping && !includesMapping item.valueType)

/-- A `mapping` match. -/
def mappingResult (m : StorageSlotInfo) (slot : List Char) (k : MappingKey) :
    SlotLabelResult :=
  { label := m.label, slot := slot, matchType := MatchType.mapping, type := m.valueType,
    keys := some [k] }

/-- Step 2 inner loop: try every candidate key against one mapping root. -/
def mappingKeyLoop (slot : List Char) (m : StorageSlotInfo) :
    List MappingKey → Option (List SlotLabelResult)
  | [] => some []
  | k :: ks => do
    let computed ← computeMappingSlot m.slot k
    let rest ← mappingKeyLoop slot m ks
    pure (if computed == slot then mappingResult m slot k :: rest else rest)

/-- Step 2: mapping matches in layout order, then key order. -/
def mappingPass (slot : List Char) (roots : List StorageSlotInfo)
    (keys : List MappingKey) : Option (List SlotLabelResult) :=
  match roots with
  | [] => some []
  | m :: ms => do
    let first ← mappingKeyLoop slot m keys
    let rest ← mappingPass slot ms keys
    pure (first ++ rest)

/-- A `nested-mapping` match. -/
def nestedResult (m : StorageSlotInfo) (slot : List Char) (k1 k2 : MappingKey) :
    SlotLabelResult :=
  { label := m.label, slot := slot, matchType := MatchType.nestedMapping,
    type := m.valueType, keys := some [k1, k2] }

/-- Step 3 inner loop over the second key; the `key1 === key2` reference
comparison of the source is modeled by comparing positions. -/
def nestedInner (slot : List Char) (m : StorageSlotInfo) (i : Nat) (k1 : MappingKey) :
    List (Nat × MappingKey) → Option (List SlotLabelResult)
  | [] => some []
  | (j, k2) :: rest =>
    if i = j then nestedInner slot m i k1 rest
    else do
      let computed ← computeNestedMappingSlot m.slot [k1, k2]
      let tail ← nestedInner slot m i k1 rest
      pure (if computed == slot then nestedResult m slot k1 k2 :: tail else tail)

/-- Step 3 outer loop over the first key. -/
def nestedOuter (slot : List Char) (m : StorageSlotInfo) :
    List (Nat × MappingKey) → List (Nat × MappingKey) → Option (List SlotLabelResult)
  | [], _ => some []
  | (i, k1) :: rest, all => do
    let a ← nestedInner slot m i k1 all
    let b ← nestedOuter slot m rest all
    pure (a ++ b)

/-- Step 3: nested-mapping matches over ordered pairs of distinct candidates.
(The roots passed by the resolver are filtered out of an already
mapping-value-free list, so this pass never fires; it is embedded faithfully.) -/
def nestedPass (slot : List Char) (roots : List StorageSlotInfo)
    (keys : List MappingKey) : Option (List SlotLabelResult) :=
  match roots with
  | [] => some []
  | m :: ms => do
    let a ← nestedOuter slot m keys.enum keys.enum
    let b ← nestedPass slot ms keys
    pure (a ++ b)

/-- Step 4's root filter: dynamic-array entries. -/
def arrayRootsOf (storageLayout : List StorageSlotInfo) : List StorageSlotInfo :=
  storageLayout.filter (fun item => item.encoding == Encoding.dynamicArray)

/-- An `array` match. -/
def arrayResult (a : StorageSlotInfo) (slot : List Char) (k : MappingKey) :
    SlotLabelResult :=
  { label := a.label, slot := slot, matchType := MatchType.array, type := a.baseType,
    index := some k.hex }

/-- Step 4 inner loop: skip candidates that are not reasonable indices, then
compare the computed element slot. -/
def arrayKeyLoop (slot : List Char) (a : StorageSlotInfo) :
    List MappingKey → Option (List SlotLabelResult)
  | [] => some []
  | k :: ks => do
    let ok ← isValidArrayIndex k.hex
    if !ok then arrayKeyLoop slot a ks
    else do
      let index ← jsBigIntHex k.hex
      let computed ← computeArraySlot a.slot index
      let rest ← arrayKeyLoop slot a ks
      pure (if computed == slot then arrayResult a slot k :: rest else rest)

/-- Step 4: dynamic-array matches. -/
def arrayPass (slot : List Char) (roots : List StorageSlotInfo)
    (keys : List MappingKey) : Option (List SlotLabelResult) :=
  match roots with
  | [] => some []
  | a :: as' => do
    let first ← arrayKeyLoop slot a keys
    let rest ← arrayPass slot as' keys
    pure (first ++ rest)

/-- The synthetic fallback: label `var_` followed by the first ten characters
of the slot (`slot.slice(0, 10)`), with no type. -/
def fallbackResult (slot : List Char) : SlotLabelResult :=
  { label := "var_".data ++ slot.take 10, slot := slot, matchType := MatchType.exact }

/-- Model of `findLayoutInfoAtSlot` (engine.ts line 136): fallback on an empty layout;
otherwise the direct matches sorted by offset (returned immediately when
present); otherwise the mapping, nested-mapping and dynamic-array passes, with
the fallback when nothing matched. -/
def findLayoutInfoAtSlot (slot : List Char) (storageLayout : List StorageSlotInfo)
    (potentialKeys : List MappingKey) : Option (List SlotLabelResult) :=
  if storageLayout.isEmpty then some [fallbackResult slot]
  else
    let direct := directMatchesAt slot storageLayout
    if !direct.isEmpty then some ((sortByOffset direct).map (exactResult slot))
    else do
      let roots := mappingRootsOf storageLayout
      let r2 ← mappingPass slot roots potentialKeys
      let r3 ← nestedPass slot (roots.filter (fun m => includesMapping m.valueType)) potentialKeys
      let r4 ← arrayPass slot (arrayRootsOf storageLayout) potentialKeys
      let results := r2 ++ r3 ++ r4
      if results.isEmpty then pure [fallbackResult slot]
      else pure results

/-! ### Candidate-key extraction `extractPotentialKeys` (engine.ts line 48) -/

/-- One retained trace operation (unused by the extractor, carried for fidelity). -/
structure RelevantOp where
  op : List Char
  stack : List (List Char)
deriving DecidableEq, Repr

/-- The slimmed trace handed to the extractor. -/
structure TraceInput where
  uniqueStackValues : Option (List (List Char)) := none
  relevantOps : Option (List RelevantOp) := none
deriving DecidableEq, Repr

/-- A known ABI function: its selector and, when known, its input type strings. -/
structure AbiFunction where
  selector : List Char
  inputs : Option (List (List Char)) := none
deriving DecidableEq, Repr

/-- viem `padHex(hex, { size: 32 })`: strip the first `0x` occurrence, left-pad
the body to 64 digits, throwing (`none`) when it is already longer. Character
case is preserved. -/
def padHex32 (s : List Char) : Option (List Char) :=
  let body := replaceFirst0x s
  if body.length > 64 then none
  else some ('0' :: 'x' :: (List.replicate (64 - body.length) '0' ++ body))

/-- viem `isHex` (strict): `0x` followed by hex digits only. -/
def isHexStr : List Char → Bool
  | c1 :: c2 :: rest => c1 == '0' && c2 == 'x' && rest.all isHexDigit
  | _ => false

/-- UTF-8 bytes of one character. -/
def utf8Bytes (c : Char) : List Nat :=
  let n := c.toNat
  if n < 128 then [n]
  else if n < 2048 then [192 + n / 64, 128 + n % 64]
  else if n < 65536 then [224 + n / 4096, 128 + n / 64 % 64, 128 + n % 64]
  else [240 + n / 262144, 128 + n / 4096 % 64, 128 + n / 64 % 64, 128 + n % 64]

/-- viem `toHex(value, { size: 32 })` on a non-hex string value: UTF-8 encode,
right-pad to 32 bytes, throwing (`none`) when longer. -/
def stringToHex32 (s : List Char) : Option (List Char) :=
  let bs := s.foldr (fun c acc => utf8Bytes c ++ acc) []
  if bs.length > 32 then none
  else some ('0' :: 'x' :: (bytesToHexChars bs ++ List.replicate (2 * (32 - bs.length)) '0'))

/-- A decoded ABI parameter: a static 32-byte word, or a dynamic array of them. -/
inductive DecodedParam where
  | scalar (word : List Nat)
  | arr (elems : List (List Nat))
deriving DecidableEq, Repr

/-- Whether an ABI type string is a one-dimensional array type. -/
def isArrayTy (t : List Char) : Bool :=
  match t.reverse with
  | ']' :: '[' :: _ => true
  | _ => false

/-- JavaScript `String.prototype.replace("[]", "")`: remove the first
occurrence of `[]`. -/
def removeBrackets : List Char → List Char
  | [] => []
  | '[' :: ']' :: rest => rest
  | c :: rest => c :: removeBrackets rest

/-- Read the 32-byte word at `pos`; `none` past the end (a cursor overflow throw). -/
def readWord (bs : List Nat) (pos : Nat) : Option (List Nat) :=
  if pos + 32 ≤ bs.length then some ((bs.drop pos).take 32) else none

/-- Big-endian value of a byte word. -/
def beBytesToNat (bs : List Nat) : Nat := bs.foldl (fun acc b => acc * 256 + b) 0

/-- Read `n` consecutive 32-byte words starting at `pos`. -/
def readWords (bs : List Nat) (pos : Nat) : Nat → Option (List (List Nat))
  | 0 => some []
  | Nat.succ k => do
    let w ← readWord bs pos
    let rest ← readWords bs (pos + 32) k
    pure (w :: rest)

/-- Per-parameter decoding for the model of viem `decodeAbiParameters`: a
static scalar type is its head word; a `T[]` type follows its offset word to a
length word and the packed static elements. Out-of-bounds reads throw. -/
def decodeAbiParamsAux (bs : List Nat) (pos : Nat) :
    List (List Char) → Option (List DecodedParam)
  | [] => some []
  | t :: ts => do
    let head ← readWord bs pos
    let p ←
      if isArrayTy t then do
        let lenWord ← readWord bs (beBytesToNat head)
        let elems ← readWords bs (beBytesToNat head + 32) (beBytesToNat lenWord)
        pure (DecodedParam.arr elems)
      else
        pure (DecodedParam.scalar head)
    let rest ← decodeAbiParamsAux bs (pos + 32) ts
    pure (p :: rest)

/-- Model of viem `decodeAbiParameters`, restricted to the shapes the key
extractor meets (static scalars, one-dimensional arrays of static elements).
It throws (`none`) on invalid hex, zero data with parameters, data shorter
than one word, or any out-of-bounds read. -/
def decodeAbiParams (inputs : List (List Char)) (data : List Char) :
    Option (List DecodedParam) := do
  let bs ← hexToBytesViem data
  if bs.isEmpty && !inputs.isEmpty then none
  else if !bs.isEmpty && bs.length < 32 then none
  else decodeAbiParamsAux bs 0 inputs

/-- The key contributed by one decoded static value of ABI type `t`:
`padHex(encodeAbiParameters([{ t }], [p]), { size: 32 })` re-encodes the value
into its canonical lower-case 32-byte word (re-encoding a just-decoded static
value reproduces its word). -/
def abiParamKey (t : List Char) (word : List Nat) : MappingKey :=
  { hex := '0' :: 'x' :: bytesToHexChars word,
    decoded := some ('0' :: 'x' :: bytesToHexChars word), type := some t }

/-- Keys pushed for one decoded parameter (engine.ts lines 80-106): an array
contributes one key per element typed with the element type (skipped when the
stripped type string is empty); a scalar contributes one key typed with the
input type (skipped when empty). -/
def paramKeys (t : List Char) : DecodedParam → List MappingKey
  | DecodedParam.arr elems =>
    if (removeBrackets t).isEmpty then [] else elems.map (abiParamKey (removeBrackets t))
  | DecodedParam.scalar w =>
    if t.isEmpty then [] else [abiParamKey t w]

/-- Keys extracted from calldata (engine.ts lines 71-108): only when the
calldata is longer than the 10-character selector and a known ABI function
matches the selector and declares inputs; a decoding throw propagates. -/
def calldataKeys (abiFunctions : List AbiFunction) (txData : Option (List Char)) :
    Option (List MappingKey) :=
  match txData with
  | none => some []
  | some d =>
    if d.length > 10 then
      match abiFunctions.find? (fun fn => fn.selector == d.take 10) with
      | some fn =>
        match fn.inputs with
        | some inputs => do
          let params ← decodeAbiParams inputs ('0' :: 'x' :: d.drop 10)
          pure (((inputs.zip params).map (fun tp => paramKeys tp.1 tp.2)).flatten)
        | none => some []
      | none => some []
    else some []

/-- The address-derived keys (engine.ts lines 62-69). -/
def addressKeys (addresses : List (List Char)) : Option (List MappingKey) :=
  addresses.mapM (fun a =>
    (padHex32 a).map (fun h =>
      ({ hex := h, decoded := some a, type := some "address".data } : MappingKey)))

/-- The stack-value keys (engine.ts lines 110-119): hex stack values are
left-padded, other strings UTF-8-encoded and right-padded; both can throw.
All are untyped. -/
def stackKeys (trace : TraceInput) : Option (List MappingKey) :=
  match trace.uniqueStackValues with
  | some vs =>
    if vs.length ≠ 0 then
      vs.mapM (fun v =>
        ((if isHexStr v then padHex32 v else stringToHex32 v).map
          (fun h => ({ hex := h, type := none } : MappingKey))))
    else some []
  | none => some []

/-- Every key pushed before deduplication, in push order: addresses, decoded
calldata parameters, stack values. -/
def collectPotentialKeys (trace : TraceInput) (addresses : List (List Char))
    (abiFunctions : List AbiFunction) (txData : Option (List Char)) :
    Option (List MappingKey) := do
  let a ← addressKeys addresses
  let b ← calldataKeys abiFunctions txData
  let c ← stackKeys trace
  pure (a ++ b ++ c)

/-- JavaScript `Map.set` keyed by the hex form: replace in place, else append. -/
def mapSetKey : List MappingKey → MappingKey → List MappingKey
  | [], k => [k]
  | e :: rest, k => if e.hex == k.hex then k :: rest else e :: mapSetKey rest k

/-- Deduplication (engine.ts lines 121-128): a key is inserted when its hex is
new or when it carries a declared type, so typed keys replace untyped ones. -/
def dedupKeys (keys : List MappingKey) : List MappingKey :=
  keys.foldl
    (fun m k =>
      if !(m.any (fun e => e.hex == k.hex)) || k.type.isSome then mapSetKey m k else m)
    []

/-- Model of `extractPotentialKeys` (engine.ts line 48): collect then deduplicate. -/
def extractPotentialKeys (trace : TraceInput) (addresses : List (List Char))
    (abiFunctions : List AbiFunction) (txData : Option (List Char)) :
    Option (List MappingKey) :=
  (collectPotentialKeys trace addresses abiFunctions txData).map dedupKeys

/-! ### The legacy normalizer (`src/lib/slot-engine.ts` line 523) -/

/-- A `string | number | bigint` slot input; `number` and `bigint` inputs go
through the same `toHex` conversion and share the `num` constructor. -/
inductive SlotInput where
  | str (s : List Char)
  | num (n : Nat)
deriving DecidableEq, Repr

/-- Anchored `replace(/^0x/, "")`. -/
def drop0xAnchored : List Char → List Char
  | c1 :: c2 :: rest => if c1 == '0' && c2 == 'x' then rest else c1 :: c2 :: rest
  | s => s

/-- Model of `normalizeSlot` (slot-engine.ts line 523): falsy inputs give `0x0`; string
inputs keep or gain a `0x` prefix; numeric inputs go through `toHex`; the
result is lower-cased and stripped of leading zero digits after the prefix,
with a bare `0x` collapsing to `0x0`. -/
def normalizeSlot (slot : SlotInput) : List Char :=
  match slot with
  | SlotInput.str s =>
    if s.isEmpty then "0x0".data
    else
      let hexValue := if isHexStr s then s else '0' :: 'x' :: drop0xAnchored s
      let normalized := hexValue.map toLowerCh
      let clean := '0' :: 'x' :: (normalized.drop 2).dropWhile (fun c => c == '0')
      if clean = "0x".data then "0x0".data else clean
  | SlotInput.num n =>
    if n = 0 then "0x0".data
    else
      let normalized := (toHexNat n).map toLowerCh
      let clean := '0' :: 'x' :: (normalized.drop 2).dropWhile (fun c => c == '0')
      if clean = "0x".data then "0x0".data else clean

/-- The deduplication step of `dedupKeys`, named for the invariant proofs. -/
def dedupStep (m : List MappingKey) (k : MappingKey) : List MappingKey :=
  if !(m.any (fun e => e.hex == k.hex)) || k.type.isSome then mapSetKey m k else m

/-- The typed-entry invariant at a given hex: some entry carries the hex, and
every entry carrying it is typed. -/
def TypedAt (m : List MappingKey) (h : List Char) : Prop :=
  (∃ e ∈ m, e.hex = h) ∧ (∀ e ∈ m, e.hex = h → e.type.isSome = true)

/-- Value of a big-endian hex digit string (how the resolver reads slots). -/
def digitsVal (s : List Char) : Nat := s.foldl (fun acc c => 16 * acc + hexVal c) 0

/-- The 256-bit value denoted by a slot input: numbers denote themselves,
strings denote their hex digits after the optional anchored `0x` prefix. -/
def slotVal : SlotInput → Nat
  | SlotInput.str s => digitsVal (drop0xAnchored s)
  | SlotInput.num n => n

/-- Valid slot denotations: any number, and any string whose characters after
the optional anchored `0x` prefix are hex digits. -/
def ValidSlot : SlotInput → Bool
  | SlotInput.str s => (drop0xAnchored s).all isHexDigit
  | SlotInput.num _ => true

/-- The canonical slot string: minimal lower-case hex digits behind `0x`. -/
def canonHex (n : Nat) : List Char := '0' :: 'x' :: minHexDigits n

/-! ### C2: `computeNestedMappingSlot` is the left fold of `computeMappingSlot` -/

theorem nestedMappingLoop_eq_foldlM (keys : List MappingKey) :
    ∀ s, nestedMappingLoop s keys = List.foldlM computeMappingSlot s keys := by
  induction keys with
  | nil => intro s; rfl
  | cons k ks ih =>
    intro s
    simp only [nestedMappingLoop, List.foldlM_cons]
    cases computeMappingSlot s k <;> simp [ih]

/-- C2: for every base slot and key list, `computeNestedMappingSlot` equals the
left (monadic) fold of `computeMappingSlot` over the keys, applying the first
key first; in particular the empty key list returns the base slot unchanged. -/
theorem computeNestedMappingSlot_is_foldl (baseSlot : List Char) (keys : List MappingKey) :
    computeNestedMappingSlot baseSlot keys = List.foldlM computeMappingSlot baseSlot keys ∧
    computeNestedMappingSlot baseSlot [] = some baseSlot := by
  constructor
  · cases keys with
    | nil => rfl
    | cons k ks => simp [computeNestedMappingSlot, nestedMappingLoop_eq_foldlM]
  · rfl

/-! ### C5: direct (compile-time) matches win and are returned alone -/

/-- C5: whenever the observed slot has at least one direct layout match, the
resolver returns exactly the direct matches (one `exact` result per packed
variable at that slot, sorted by offset) and nothing else. -/
theorem direct_matches_return_immediately (slot : List Char)
    (layout : List StorageSlotInfo) (keys : List MappingKey)
    (h : directMatchesAt slot layout ≠ []) :
    findLayoutInfoAtSlot slot layout keys
      = some ((sortByOffset (directMatchesAt slot layout)).map (exactResult slot)) ∧
    ∀ r ∈ (sortByOffset (directMatchesAt slot layout)).map (exactResult slot),
      r.matchType = MatchType.exact := by
  have hl : layout ≠ [] := by
    rintro rfl
    exact h (by simp [directMatchesAt])
  constructor
  · simp only [findLayoutInfoAtSlot]
    rw [if_neg (by simp [hl]), if_pos (by simp [h])]
  · intro r hr
    simp only [List.mem_map] at hr
    obtain ⟨m, _, rfl⟩ := hr
    rfl

/-! ### C4: totality of the fallback for unmatched slots -/

theorem nestedRoots_eq_nil (layout : List StorageSlotInfo) :
    (mappingRootsOf layout).filter (fun m => includesMapping m.valueType) = [] := by
  simp only [mappingRootsOf, List.filter_filter]
  apply List.filter_eq_nil_iff.mpr
  intro a _
  cases hh : includesMapping a.valueType <;> simp [hh]

/-- C4: for every observed slot and layout, when no layout entry matches it
(directly, via mapping keys, or via array indices — and the nested-mapping pass
is structurally empty), the resolver emits exactly one fallback result labeled
`var_` + the ten-character slot prefix, with no (unknown) type, regardless of
the slot's numeric value. -/
theorem fallback_when_unmatched (slot : List Char) (layout : List StorageSlotInfo)
    (keys : List MappingKey)
    (hd : directMatchesAt slot layout = [])
    (hm : mappingPass slot (mappingRootsOf layout) keys = some [])
    (ha : arrayPass slot (arrayRootsOf layout) keys = some []) :
    findLayoutInfoAtSlot slot layout keys = some [fallbackResult slot] ∧
    (fallbackResult slot).label = "var_".data ++ slot.take 10 ∧
    (fallbackResult slot).type = none := by
  refine ⟨?_, rfl, rfl⟩
  by_cases hl : layout = []
  · subst hl; rfl
  · simp only [findLayoutInfoAtSlot]
    rw [if_neg (by simp [hl]), if_neg (by simp [hd])]
    rw [nestedRoots_eq_nil]
    simp [hm, ha, nestedPass]

/-! ### Facts about the rendered keccak output -/

theorem keccakRound_length (st : List Nat) (rc : Nat) : (keccakRound st rc).length = 25 := by
  have hchi : (chi (rhoPi (theta st))).length = 25 := by simp [chi]
  cases h : chi (rhoPi (theta st)) with
  | nil => rw [h] at hchi; simp at hchi
  | cons a rest =>
    rw [h] at hchi
    simp [keccakRound, h]
    simpa using hchi

theorem foldl_keccakRound_length (rcs : List Nat) :
    ∀ st, rcs ≠ [] → (List.foldl keccakRound st rcs).length = 25 := by
  induction rcs with
  | nil => intro st h; exact absurd rfl h
  | cons rc rest ih =>
    intro st _
    by_cases hr : rest = []
    · subst hr; simp [keccakRound_length]
    · simp only [List.foldl_cons]; exact ih _ hr

theorem keccakF_length (st : List Nat) : (keccakF st).length = 25 :=
  foldl_keccakRound_length keccakRC st (by simp [keccakRC])

theorem absorbAll_length (n : Nat) :
    ∀ st padded, st.length = 25 → (absorbAll st padded n).length = 25 := by
  induction n with
  | zero => intro st padded h; exact h
  | succ k ih =>
    intro st padded h
    simp only [absorbAll]
    exact ih _ _ (by simp [absorbBlock, keccakF_length])

theorem foldr_laneBytes_length (l : List Nat) :
    (l.foldr (fun x acc => laneBytes x ++ acc) []).length = 8 * l.length := by
  induction l with
  | nil => rfl
  | cons a rest ih =>
    simp only [List.foldr_cons, List.length_append, ih, List.length_cons]
    have h8 : (laneBytes a).length = 8 := rfl
    rw [h8]; omega

theorem keccak256Bytes_length (msg : List Nat) : (keccak256Bytes msg).length = 32 := by
  unfold keccak256Bytes
  have h25 : (absorbAll (List.replicate 25 0) (keccakPad msg) ((keccakPad msg).length / 136)).length = 25 :=
    absorbAll_length _ _ _ (by simp)
  rw [foldr_laneBytes_length, List.length_take, h25]
  rfl

theorem laneBytes_lt (l : Nat) : ∀ b ∈ laneBytes l, b < 256 := by
  intro b hb
  simp only [laneBytes, List.mem_cons, List.not_mem_nil, or_false] at hb
  rcases hb with h | h | h | h | h | h | h | h <;> subst h <;>
    exact Nat.mod_lt _ (by norm_num)

theorem mem_foldr_laneBytes (L : List Nat) (b : Nat)
    (hb : b ∈ L.foldr (fun x acc => laneBytes x ++ acc) []) : ∃ l ∈ L, b ∈ laneBytes l := by
  induction L with
  | nil => simp at hb
  | cons a rest ih =>
    simp only [List.foldr_cons, List.mem_append] at hb
    rcases hb with h | h
    · exact ⟨a, by simp, h⟩
    · obtain ⟨l, hl, hbl⟩ := ih h
      exact ⟨l, by simp [hl], hbl⟩

theorem keccak256Bytes_lt (msg : List Nat) : ∀ b ∈ keccak256Bytes msg, b < 256 := by
  intro b hb
  unfold keccak256Bytes at hb
  obtain ⟨l, _, hbl⟩ := mem_foldr_laneBytes _ _ hb
  exact laneBytes_lt l b hbl

/-! ### Hex rendering and parsing round trips -/

theorem isHexDigit_hexChar : ∀ v : Nat, v < 16 → isHexDigit (hexChar v) = true := by decide

theorem hexVal_hexChar : ∀ v : Nat, v < 16 → hexVal (hexChar v) = v := by decide

theorem bytesToHexChars_all_hex (bs : List Nat) (h : ∀ b ∈ bs, b < 256) :
    (bytesToHexChars bs).all isHexDigit = true := by
  induction bs with
  | nil => rfl
  | cons b rest ih =>
    have hb : b < 256 := h b (by simp)
    have h1 : b / 16 < 16 := by omega
    have h2 : b % 16 < 16 := Nat.mod_lt _ (by norm_num)
    simp only [bytesToHexChars, List.all_cons, Bool.and_eq_true]
    exact ⟨isHexDigit_hexChar _ h1, isHexDigit_hexChar _ h2,
      by simpa using ih (fun x hx => h x (by simp [hx]))⟩

theorem foldl_hexVal_bytesToHexChars (bs : List Nat) :
    ∀ acc, (∀ b ∈ bs, b < 256) →
      (bytesToHexChars bs).foldl (fun a c => 16 * a + hexVal c) acc
        = bs.foldl (fun a b => a * 256 + b) acc := by
  induction bs with
  | nil => intro acc _; rfl
  | cons b rest ih =>
    intro acc h
    have hb : b < 256 := h b (by simp)
    have h1 : b / 16 < 16 := by omega
    have h2 : b % 16 < 16 := Nat.mod_lt _ (by norm_num)
    simp only [bytesToHexChars, List.foldl_cons]
    rw [hexVal_hexChar _ h1, hexVal_hexChar _ h2,
      ih _ (fun x hx => h x (by simp [hx]))]
    congr 1
    omega

theorem bytesToHexChars_ne_nil (bs : List Nat) (h : bs ≠ []) : bytesToHexChars bs ≠ [] := by
  cases bs with
  | nil => exact absurd rfl h
  | cons b rest => simp [bytesToHexChars]

theorem jsBigIntHex_of_bytes (bs : List Nat) (hne : bs ≠ []) (hlt : ∀ b ∈ bs, b < 256) :
    jsBigIntHex ('0' :: 'x' :: bytesToHexChars bs) = some (beBytesToNat bs) := by
  have h1 : (bytesToHexChars bs).isEmpty = false := by
    cases bs with
    | nil => exact absurd rfl hne
    | cons b r => rfl
  have h2 := bytesToHexChars_all_hex bs hlt
  simp [jsBigIntHex, h1, h2, beBytesToNat, foldl_hexVal_bytesToHexChars bs 0 hlt]

/-! ### C3: `computeArraySlot` does not reduce modulo 2^256 -/

/-- C3 (amended): for every base slot that converts to bytes and every index,
`computeArraySlot` returns `keccak256(base) + index` encoded as a left-padded
32-byte hex word when the sum is below 2^256, and throws
(`IntegerOutOfRangeError` from `toHex(..., { size: 32 })`, modeled as `none`)
when the sum reaches 2^256 — there is no modulo-2^256 reduction. -/
theorem computeArraySlot_no_modular_wrap (baseSlot : List Char) (index : Nat) (bs : List Nat)
    (hb : hexToBytesViem baseSlot = some bs) :
    computeArraySlot baseSlot index =
      if beBytesToNat (keccak256Bytes bs) + index < 2 ^ 256 then
        some ('0' :: 'x' ::
          (List.replicate (64 - (minHexDigits (beBytesToNat (keccak256Bytes bs) + index)).length) '0'
            ++ minHexDigits (beBytesToNat (keccak256Bytes bs) + index)))
      else none := by
  have hkec : keccak256Hex baseSlot = some ('0' :: 'x' :: bytesToHexChars (keccak256Bytes bs)) := by
    simp [keccak256Hex, hb]
  have hne : keccak256Bytes bs ≠ [] := by
    intro h
    have h32 := keccak256Bytes_length bs
    rw [h] at h32
    simp at h32
  have hjs := jsBigIntHex_of_bytes (keccak256Bytes bs) hne (keccak256Bytes_lt bs)
  simp [computeArraySlot, hkec, hjs, toHexSize32]

set_option maxRecDepth 100000 in
set_option maxHeartbeats 1000000 in
/-- C3 counterexample: at base slot `0x00` and index 2^256 - 1 the sum
`keccak256(0x00) + index` exceeds 2^256 and `computeArraySlot` throws instead
of wrapping to a valid 32-byte slot. -/
theorem computeArraySlot_overflow_throws :
    computeArraySlot ("0x00".data) (2 ^ 256 - 1) = none := by decide

set_option maxRecDepth 100000 in
set_option maxHeartbeats 1000000 in
/-- C3 witness at base slot `0x00`, byte list `[0]`, index 3. -/
theorem computeArraySlot_no_modular_wrap_witness :
    hexToBytesViem ("0x00".data) = some [0] ∧
    computeArraySlot ("0x00".data) 3 =
      (if beBytesToNat (keccak256Bytes [0]) + 3 < 2 ^ 256 then
        some ('0' :: 'x' ::
          (List.replicate (64 - (minHexDigits (beBytesToNat (keccak256Bytes [0]) + 3)).length) '0'
            ++ minHexDigits (beBytesToNat (keccak256Bytes [0]) + 3)))
      else none) :=
  ⟨by decide, computeArraySlot_no_modular_wrap ("0x00".data) 3 [0] (by decide)⟩

/-! ### C6: there is no key-type filtering in the mapping pass -/

set_option maxRecDepth 1000000 in
set_option maxHeartbeats 4000000 in
/-- C6 counterexample: an `address`-typed candidate tried against a
`t_uint256`-keyed mapping (both types known and incompatible) still produces a
mapping match when the hashes line up — the resolver never skips a candidate on
type grounds. -/
theorem incompatible_key_still_matches :
    findLayoutInfoAtSlot
      ("0x74d0cb9d91192660c818240c1f8cf17785b902bf26609deb8bbeabe96b170f93".data)
      [{ label := "balances".data, slot := "0x02".data, encoding := Encoding.mapping,
         valueType := some "t_uint256".data, keyType := some "t_uint256".data }]
      [{ hex := "0x0000000000000000000000001111111111111111111111111111111111111111".data,
         type := some "address".data }]
      = some [{ label := "balances".data,
                slot := "0x74d0cb9d91192660c818240c1f8cf17785b902bf26609deb8bbeabe96b170f93".data,
                matchType := MatchType.mapping, type := some "t_uint256".data,
                keys := some [{ hex := "0x0000000000000000000000001111111111111111111111111111111111111111".data,
                                type := some "address".data }] }] := by
  decide

/-- C6 (amended): the resolver performs no key-type filtering at all: every
candidate is tried against every simple mapping root regardless of the
candidate's declared type and the mapping's key type, and it produces a match
whenever its computed slot equals the observed slot. -/
theorem mapping_candidates_never_skipped (slot : List Char) (m : StorageSlotInfo)
    (k : MappingKey)
    (henc : m.encoding = Encoding.mapping)
    (hval : includesMapping m.valueType = false)
    (hslot : m.slot ≠ slot)
    (hcomp : computeMappingSlot m.slot k = some slot) :
    findLayoutInfoAtSlot slot [m] [k] = some [mappingResult m slot k] := by
  have hbeq : (m.slot == slot) = false := beq_eq_false_iff_ne.mpr hslot
  have hd : directMatchesAt slot [m] = [] := by
    simp [directMatchesAt, hbeq]
  have hroots : mappingRootsOf [m] = [m] := by
    simp [mappingRootsOf, henc, hval]
  have h2 : mappingPass slot (mappingRootsOf [m]) [k] = some [mappingResult m slot k] := by
    rw [hroots]
    simp [mappingPass, mappingKeyLoop, hcomp]
  have h3 : nestedPass slot ((mappingRootsOf [m]).filter (fun x => includesMapping x.valueType)) [k]
      = some [] := by
    rw [nestedRoots_eq_nil]; rfl
  have h4 : arrayPass slot (arrayRootsOf [m]) [k] = some [] := by
    have ha : arrayRootsOf [m] = [] := by
      simp [arrayRootsOf, henc]
    rw [ha]; rfl
  simp only [findLayoutInfoAtSlot]
  rw [if_neg (by simp), if_neg (by simp [hd])]
  simp [h2, h3, h4]

set_option maxRecDepth 1000000 in
set_option maxHeartbeats 4000000 in
/-- C6 (amended) witness: a `t_uint256`-typed candidate against a
`t_address`-keyed mapping still yields the match. -/
theorem mapping_candidates_never_skipped_witness :
    computeMappingSlot ("0x00".data)
        ({ hex := "0x0000000000000000000000000000000000000000000000000000000000000005".data,
           type := some "t_uint256".data })
      = some ("0x57ff2d67204271e9814ea167d4715b513fac9ab0fa86d4a8fde714db964504fe".data) ∧
    findLayoutInfoAtSlot
        ("0x57ff2d67204271e9814ea167d4715b513fac9ab0fa86d4a8fde714db964504fe".data)
        [{ label := "registry".data, slot := "0x00".data, encoding := Encoding.mapping,
           valueType := some "t_bool".data, keyType := some "t_address".data }]
        [{ hex := "0x0000000000000000000000000000000000000000000000000000000000000005".data,
           type := some "t_uint256".data }]
      = some [mappingResult
          { label := "registry".data, slot := "0x00".data, encoding := Encoding.mapping,
            valueType := some "t_bool".data, keyType := some "t_address".data }
          ("0x57ff2d67204271e9814ea167d4715b513fac9ab0fa86d4a8fde714db964504fe".data)
          { hex := "0x0000000000000000000000000000000000000000000000000000000000000005".data,
            type := some "t_uint256".data }] := by
  have hc : computeMappingSlot ("0x00".data)
      ({ hex := "0x0000000000000000000000000000000000000000000000000000000000000005".data,
         type := some "t_uint256".data })
      = some ("0x57ff2d67204271e9814ea167d4715b513fac9ab0fa86d4a8fde714db964504fe".data) := by
    decide
  exact ⟨hc, mapping_candidates_never_skipped _ _ _ rfl (by decide) (by decide) hc⟩

/-! ### C7: no integer constants 0..9 in the candidate extraction -/

/-- C7 counterexample: with no addresses, no calldata and no stack values, the
extraction returns no candidates at all — in particular none of the integer
constants 0 through 9 that the claim says are always included. -/
theorem extractPotentialKeys_empty_output :
    extractPotentialKeys {} [] [] none = some [] := rfl

theorem mem_mapSetKey (m : List MappingKey) (k e : MappingKey) (h : e ∈ mapSetKey m k) :
    e ∈ m ∨ e = k := by
  induction m with
  | nil =>
    simp only [mapSetKey, List.mem_singleton] at h
    right; exact h
  | cons a rest ih =>
    simp only [mapSetKey] at h
    by_cases hx : (a.hex == k.hex) = true
    · rw [if_pos hx] at h
      rcases List.mem_cons.mp h with h1 | h1
      · right; exact h1
      · left; exact List.mem_cons_of_mem _ h1
    · rw [if_neg hx] at h
      rcases List.mem_cons.mp h with h1 | h1
      · left; simp [h1]
      · rcases ih h1 with h2 | h2
        · left; exact List.mem_cons_of_mem _ h2
        · right; exact h2

theorem mem_foldl_step (step : List MappingKey → MappingKey → List MappingKey)
    (hstep : ∀ m k e, e ∈ step m k → e ∈ m ∨ e = k) :
    ∀ (keys m : List MappingKey) (e : MappingKey),
      e ∈ keys.foldl step m → e ∈ m ∨ e ∈ keys := by
  intro keys
  induction keys with
  | nil => intro m e h; left; exact h
  | cons k ks ih =>
    intro m e h
    simp only [List.foldl_cons] at h
    rcases ih _ e h with h1 | h1
    · rcases hstep m k e h1 with h2 | h2
      · left; exact h2
      · right; simp [h2]
    · right; exact List.mem_cons_of_mem _ h1

theorem mem_dedupKeys (keys : List MappingKey) (e : MappingKey) (h : e ∈ dedupKeys keys) :
    e ∈ keys := by
  simp only [dedupKeys] at h
  have hstep : ∀ (m : List MappingKey) (k x : MappingKey),
      x ∈ (if !(m.any (fun y => y.hex == k.hex)) || k.type.isSome then mapSetKey m k else m) →
      x ∈ m ∨ x = k := by
    intro m k x hx
    by_cases hc : (!(m.any (fun y => y.hex == k.hex)) || k.type.isSome) = true
    · rw [if_pos hc] at hx; exact mem_mapSetKey m k x hx
    · rw [if_neg hc] at hx; left; exact hx
  rcases mem_foldl_step _ hstep keys [] e h with h1 | h1
  · simp at h1
  · exact h1

theorem mem_mapM_option {α β : Type} (f : α → Option β) :
    ∀ (l : List α) (out : List β), l.mapM f = some out → ∀ b ∈ out, ∃ a ∈ l, f a = some b := by
  intro l
  induction l with
  | nil =>
    intro out h b hb
    rw [List.mapM_nil] at h
    cases h
    simp at hb
  | cons a rest ih =>
    intro out h b hb
    rw [List.mapM_cons] at h
    cases hfa : f a with
    | none => rw [hfa] at h; simp at h
    | some y =>
      rw [hfa] at h
      cases hrest : rest.mapM f with
      | none => rw [hrest] at h; simp at h
      | some ys =>
        rw [hrest] at h
        simp at h
        subst h
        rcases List.mem_cons.mp hb with hb1 | hb1
        · subst hb1; exact ⟨a, by simp, hfa⟩
        · obtain ⟨x, hx, hfx⟩ := ih ys hrest b hb1
          exact ⟨x, by simp [hx], hfx⟩

theorem mem_addressKeys (addrs : List (List Char)) (out : List MappingKey)
    (h : addressKeys addrs = some out) :
    ∀ e ∈ out, ∃ a ∈ addrs, padHex32 a = some e.hex ∧ e.type = some "address".data := by
  intro e he
  obtain ⟨a, ha, hfa⟩ := mem_mapM_option _ addrs out h e he
  refine ⟨a, ha, ?_⟩
  cases hp : padHex32 a with
  | none => rw [hp] at hfa; simp at hfa
  | some hh =>
    rw [hp] at hfa
    simp at hfa
    rw [← hfa]
    exact ⟨rfl, rfl⟩

theorem mem_paramKeys (t : List Char) (p : DecodedParam) (e : MappingKey)
    (h : e ∈ paramKeys t p) : ∃ t' w, e = abiParamKey t' w := by
  cases p with
  | arr elems =>
    simp only [paramKeys] at h
    by_cases hemp : (removeBrackets t).isEmpty = true
    · rw [if_pos hemp] at h; simp at h
    · rw [if_neg hemp] at h
      obtain ⟨w, _, rfl⟩ := List.mem_map.mp h
      exact ⟨_, _, rfl⟩
  | scalar w =>
    simp only [paramKeys] at h
    by_cases hemp : t.isEmpty = true
    · rw [if_pos hemp] at h; simp at h
    · rw [if_neg hemp] at h
      simp at h
      exact ⟨t, w, h⟩

theorem mem_calldataKeys (abis : List AbiFunction) (txd : Option (List Char))
    (out : List MappingKey) (h : calldataKeys abis txd = some out) :
    ∀ e ∈ out, ∃ t w, e = abiParamKey t w := by
  intro e he
  cases txd with
  | none =>
    simp only [calldataKeys] at h
    cases h
    simp at he
  | some d =>
    simp only [calldataKeys] at h
    by_cases hlen : d.length > 10
    · rw [if_pos hlen] at h
      cases hf : abis.find? (fun fn => fn.selector == d.take 10) with
      | none => simp only [hf] at h; cases h; simp at he
      | some fn =>
        simp only [hf] at h
        cases hi : fn.inputs with
        | none => simp only [hi] at h; cases h; simp at he
        | some inputs =>
          simp only [hi] at h
          cases hdec : decodeAbiParams inputs ('0' :: 'x' :: d.drop 10) with
          | none => simp only [hdec] at h; simp at h
          | some params =>
            simp only [hdec] at h
            simp at h
            subst h
            rw [List.mem_flatten] at he
            obtain ⟨s, hs, hes⟩ := he
            obtain ⟨tp, _, rfl⟩ := List.mem_map.mp hs
            exact mem_paramKeys tp.1 tp.2 e hes
    · rw [if_neg hlen] at h; cases h; simp at he

theorem mem_stackKeys (trace : TraceInput) (out : List MappingKey)
    (h : stackKeys trace = some out) :
    ∀ e ∈ out, ∃ vs, trace.uniqueStackValues = some vs ∧ ∃ v ∈ vs,
      (if isHexStr v then padHex32 v else stringToHex32 v) = some e.hex ∧ e.type = none := by
  intro e he
  cases hu : trace.uniqueStackValues with
  | none => simp only [stackKeys, hu] at h; cases h; simp at he
  | some vs =>
    simp only [stackKeys, hu] at h
    by_cases hl : vs.length ≠ 0
    · rw [if_pos hl] at h
      obtain ⟨v, hv, hfv⟩ := mem_mapM_option _ vs out h e he
      refine ⟨vs, rfl, v, hv, ?_⟩
      cases hx : (if isHexStr v then padHex32 v else stringToHex32 v) with
      | none => rw [hx] at hfv; simp at hfv
      | some hh =>
        rw [hx] at hfv
        simp at hfv
        rw [← hfv]
        exact ⟨rfl, rfl⟩
    · rw [if_neg hl] at h; cases h; simp at he

/-- C7 (amended): every candidate produced by `extractPotentialKeys` comes from
one of exactly three sources — a padded touched address, a re-encoded decoded
calldata parameter, or a stack value — so no integer constants 0..9 are ever
injected. (The fixed 0..9 constants are a feature of the legacy
`extractPotentialValuesFromTrace` in `slot-engine.ts`, not of this extractor.) -/
theorem extractPotentialKeys_sources (trace : TraceInput) (addrs : List (List Char))
    (abis : List AbiFunction) (txd : Option (List Char)) (out : List MappingKey)
    (h : extractPotentialKeys trace addrs abis txd = some out) :
    ∀ e ∈ out,
      (∃ a ∈ addrs, padHex32 a = some e.hex ∧ e.type = some "address".data) ∨
      (∃ t w, e = abiParamKey t w) ∨
      (∃ vs, trace.uniqueStackValues = some vs ∧ ∃ v ∈ vs,
        (if isHexStr v then padHex32 v else stringToHex32 v) = some e.hex ∧ e.type = none) := by
  intro e he
  simp only [extractPotentialKeys] at h
  cases hc : collectPotentialKeys trace addrs abis txd with
  | none => rw [hc] at h; simp at h
  | some collected =>
    rw [hc] at h
    simp at h
    subst h
    have he2 : e ∈ collected := mem_dedupKeys _ _ he
    simp only [collectPotentialKeys] at hc
    cases ha : addressKeys addrs with
    | none => rw [ha] at hc; simp at hc
    | some aks =>
      rw [ha] at hc
      cases hb : calldataKeys abis txd with
      | none => rw [hb] at hc; simp at hc
      | some bks =>
        rw [hb] at hc
        cases hs : stackKeys trace with
        | none => rw [hs] at hc; simp at hc
        | some sks =>
          rw [hs] at hc
          simp at hc
          subst hc
          rcases List.mem_append.mp he2 with h1 | h1
          · exact Or.inl (mem_addressKeys addrs aks ha e h1)
          · rcases List.mem_append.mp h1 with h2 | h2
            · exact Or.inr (Or.inl (mem_calldataKeys abis txd bks hb e h2))
            · exact Or.inr (Or.inr (mem_stackKeys trace sks hs e h2))

/-- C7 (amended) witness: a single stack value yields a single stack-sourced
candidate. -/
theorem extractPotentialKeys_sources_witness :
    extractPotentialKeys { uniqueStackValues := some ["0x01".data] } [] [] none
      = some [{ hex := "0x0000000000000000000000000000000000000000000000000000000000000001".data,
                type := none }] ∧
    ((∃ a ∈ ([] : List (List Char)), padHex32 a
        = some ({ hex := "0x0000000000000000000000000000000000000000000000000000000000000001".data,
                  type := none } : MappingKey).hex ∧
        ({ hex := "0x0000000000000000000000000000000000000000000000000000000000000001".data,
           type := none } : MappingKey).type = some "address".data) ∨
      (∃ t w, ({ hex := "0x0000000000000000000000000000000000000000000000000000000000000001".data,
                 type := none } : MappingKey) = abiParamKey t w) ∨
      (∃ vs, ({ uniqueStackValues := some ["0x01".data] } : TraceInput).uniqueStackValues = some vs ∧
        ∃ v ∈ vs, (if isHexStr v then padHex32 v else stringToHex32 v)
            = some ({ hex := "0x0000000000000000000000000000000000000000000000000000000000000001".data,
                      type := none } : MappingKey).hex ∧
          ({ hex := "0x0000000000000000000000000000000000000000000000000000000000000001".data,
             type := none } : MappingKey).type = none)) :=
  ⟨by decide,
    extractPotentialKeys_sources { uniqueStackValues := some ["0x01".data] } [] [] none
      [{ hex := "0x0000000000000000000000000000000000000000000000000000000000000001".data,
         type := none }]
      (by decide) _ (by simp)⟩

/-- C5 witness: one direct entry at slot `0x01`. -/
theorem direct_matches_return_immediately_witness :
    directMatchesAt ("0x01".data)
        [{ label := "owner".data, slot := "0x01".data, encoding := Encoding.inplace }] ≠ [] ∧
    (findLayoutInfoAtSlot ("0x01".data)
        [{ label := "owner".data, slot := "0x01".data, encoding := Encoding.inplace }] []
      = some ((sortByOffset (directMatchesAt ("0x01".data)
          [{ label := "owner".data, slot := "0x01".data, encoding := Encoding.inplace }])).map
            (exactResult ("0x01".data))) ∧
     ∀ r ∈ (sortByOffset (directMatchesAt ("0x01".data)
          [{ label := "owner".data, slot := "0x01".data, encoding := Encoding.inplace }])).map
            (exactResult ("0x01".data)),
       r.matchType = MatchType.exact) :=
  ⟨by decide, direct_matches_return_immediately _ _ _ (by decide)⟩

/-- C4 witness: a nonempty layout with no match at the observed slot `0x07`. -/
theorem fallback_when_unmatched_witness :
    (directMatchesAt ("0x07".data)
        [{ label := "owner".data, slot := "0x05".data, encoding := Encoding.inplace }] = [] ∧
     mappingPass ("0x07".data)
        (mappingRootsOf [{ label := "owner".data, slot := "0x05".data, encoding := Encoding.inplace }])
        [] = some [] ∧
     arrayPass ("0x07".data)
        (arrayRootsOf [{ label := "owner".data, slot := "0x05".data, encoding := Encoding.inplace }])
        [] = some []) ∧
    (findLayoutInfoAtSlot ("0x07".data)
        [{ label := "owner".data, slot := "0x05".data, encoding := Encoding.inplace }] []
      = some [fallbackResult ("0x07".data)] ∧
     (fallbackResult ("0x07".data)).label = "var_".data ++ ("0x07".data).take 10 ∧
     (fallbackResult ("0x07".data)).type = none) :=
  ⟨⟨by decide, by decide, by decide⟩,
   fallback_when_unmatched _ _ _ (by decide) (by decide) (by decide)⟩

/-! ### C9: the extractor can raise; the resolver is total on well-formed input -/

/-- C9 counterexample: calldata whose selector matches a known one-argument
function but whose body is a single byte makes `decodeAbiParameters` throw, and
`extractPotentialKeys` propagates the exception instead of returning a list. -/
theorem extractPotentialKeys_raises :
    extractPotentialKeys {} []
      [{ selector := "0xaabbccdd".data, inputs := some ["uint256".data] }]
      (some "0xaabbccdd00".data) = none := by decide

theorem isHexStr_shape (s : List Char) (h : isHexStr s = true) :
    ∃ rest, s = '0' :: 'x' :: rest ∧ rest.all isHexDigit = true := by
  match s with
  | [] => simp [isHexStr] at h
  | [c] => simp [isHexStr] at h
  | c1 :: c2 :: rest =>
    simp only [isHexStr, Bool.and_eq_true, beq_iff_eq] at h
    exact ⟨rest, by rw [h.1.1, h.1.2], h.2⟩

theorem replaceFirst0x_prefixed (rest : List Char) :
    replaceFirst0x ('0' :: 'x' :: rest) = rest := by
  simp [replaceFirst0x]

theorem hexPairsToBytes_isSome :
    ∀ (l : List Char), l.all isHexDigit = true → l.length % 2 = 0 →
      ∃ bs, hexPairsToBytes l = some bs
  | [], _, _ => ⟨[], rfl⟩
  | [c], _, h => by simp at h
  | c1 :: c2 :: rest, hall, hlen => by
    simp only [List.all_cons, Bool.and_eq_true] at hall
    obtain ⟨h1, h2, h3⟩ := hall
    have hlen2 : rest.length % 2 = 0 := by
      simp only [List.length_cons] at hlen
      omega
    obtain ⟨bs, hbs⟩ := hexPairsToBytes_isSome rest h3 hlen2
    refine ⟨(16 * hexVal c1 + hexVal c2) :: bs, ?_⟩
    simp [hexPairsToBytes, h1, h2, hbs]

theorem hexToBytesViem_isSome (s : List Char) (h : (s.drop 2).all isHexDigit = true) :
    ∃ bs, hexToBytesViem s = some bs := by
  simp only [hexToBytesViem]
  by_cases hp : (s.drop 2).length % 2 = 1
  · rw [if_pos hp]
    apply hexPairsToBytes_isSome
    · simp only [List.all_cons, Bool.and_eq_true]
      exact ⟨by decide, h⟩
    · simp only [List.length_cons]
      omega
  · rw [if_neg hp]
    exact hexPairsToBytes_isSome _ h (by omega)

theorem computeMappingSlot_isSome (base : List Char) (k : MappingKey)
    (hb : isHexStr base = true) (hk : isHexStr k.hex = true) :
    ∃ r, computeMappingSlot base k = some r := by
  obtain ⟨bd, hbd, hbdall⟩ := isHexStr_shape base hb
  obtain ⟨kd, hkd, hkdall⟩ := isHexStr_shape k.hex hk
  rw [computeMappingSlot, hbd, hkd, replaceFirst0x_prefixed, replaceFirst0x_prefixed]
  simp only [keccak256Hex]
  have hall : ((('0' :: 'x' :: (kd ++ bd)).drop 2).all isHexDigit) = true := by
    simp only [List.drop_succ_cons, List.drop_zero, List.all_append, Bool.and_eq_true]
    exact ⟨hkdall, hbdall⟩
  obtain ⟨bs, hbs⟩ := hexToBytesViem_isSome _ hall
  exact ⟨_, by rw [hbs]; rfl⟩

theorem jsBigIntHex_isSome (s : List Char) (hs : isHexStr s = true) (hl : 2 < s.length) :
    ∃ v, jsBigIntHex s = some v := by
  obtain ⟨rest, rfl, hall⟩ := isHexStr_shape s hs
  have hne : rest.isEmpty = false := by
    cases rest with
    | nil => simp at hl
    | cons a t => rfl
  refine ⟨rest.foldl (fun acc c => 16 * acc + hexVal c) 0, ?_⟩
  simp [jsBigIntHex, hne, hall]

theorem mappingKeyLoop_isSome (slot : List Char) (m : StorageSlotInfo)
    (hm : isHexStr m.slot = true) :
    ∀ keys : List MappingKey, (∀ k ∈ keys, isHexStr k.hex = true) →
      ∃ r, mappingKeyLoop slot m keys = some r := by
  intro keys
  induction keys with
  | nil => intro _; exact ⟨[], rfl⟩
  | cons k ks ih =>
    intro hk
    obtain ⟨c, hc⟩ := computeMappingSlot_isSome m.slot k hm (hk k (by simp))
    obtain ⟨r, hr⟩ := ih (fun x hx => hk x (by simp [hx]))
    refine ⟨if c == slot then mappingResult m slot k :: r else r, ?_⟩
    simp only [mappingKeyLoop, hc, hr, Option.bind_eq_bind, Option.some_bind]
    rfl

theorem mappingPass_isSome (slot : List Char) :
    ∀ roots : List StorageSlotInfo, (∀ m ∈ roots, isHexStr m.slot = true) →
      ∀ keys : List MappingKey, (∀ k ∈ keys, isHexStr k.hex = true) →
        ∃ r, mappingPass slot roots keys = some r := by
  intro roots
  induction roots with
  | nil => intro _ keys _; exact ⟨[], rfl⟩
  | cons m ms ih =>
    intro hr keys hk
    obtain ⟨a, ha⟩ := mappingKeyLoop_isSome slot m (hr m (by simp)) keys hk
    obtain ⟨b, hb⟩ := ih (fun x hx => hr x (by simp [hx])) keys hk
    refine ⟨a ++ b, ?_⟩
    simp [mappingPass, ha, hb]

theorem arrayKeyLoop_isSome (slot : List Char) (a : StorageSlotInfo)
    (ha : ∀ k v, jsBigIntHex k = some v → v < 1000000 → (computeArraySlot a.slot v).isSome) :
    ∀ keys : List MappingKey,
      (∀ k ∈ keys, isHexStr k.hex = true ∧ 2 < k.hex.length) →
      ∃ r, arrayKeyLoop slot a keys = some r := by
  intro keys
  induction keys with
  | nil => intro _; exact ⟨[], rfl⟩
  | cons k ks ih =>
    intro hk
    obtain ⟨hkhex, hklen⟩ := hk k (by simp)
    obtain ⟨v, hv⟩ := jsBigIntHex_isSome k.hex hkhex hklen
    obtain ⟨r, hr⟩ := ih (fun x hx => hk x (by simp [hx]))
    by_cases hsmall : v < 1000000
    · have hcs : (computeArraySlot a.slot v).isSome := ha k.hex v hv hsmall
      obtain ⟨c, hcc⟩ := Option.isSome_iff_exists.mp hcs
      refine ⟨if c == slot then arrayResult a slot k :: r else r, ?_⟩
      simp [arrayKeyLoop, isValidArrayIndex, hv, hsmall, hcc, hr]
    · refine ⟨r, ?_⟩
      simp [arrayKeyLoop, isValidArrayIndex, hv, hsmall, hr]

theorem arrayPass_isSome (slot : List Char) :
    ∀ roots : List StorageSlotInfo,
      (∀ a ∈ roots, ∀ k v, jsBigIntHex k = some v → v < 1000000 →
        (computeArraySlot a.slot v).isSome) →
      ∀ keys : List MappingKey,
        (∀ k ∈ keys, isHexStr k.hex = true ∧ 2 < k.hex.length) →
        ∃ r, arrayPass slot roots keys = some r := by
  intro roots
  induction roots with
  | nil => intro _ keys _; exact ⟨[], rfl⟩
  | cons a as' ih =>
    intro hr keys hk
    obtain ⟨x, hx⟩ := arrayKeyLoop_isSome slot a (hr a (by simp)) keys hk
    obtain ⟨y, hy⟩ := ih (fun z hz => hr z (by simp [hz])) keys hk
    refine ⟨x ++ y, ?_⟩
    simp [arrayPass, hx, hy]

/-- C9 (amended): the resolver `findLayoutInfoAtSlot` returns normally for
every input whose layout slots and candidate hexes are well-formed nonempty hex
strings and whose array-slot computations stay below 2^256; the extractor
`extractPotentialKeys`, by contrast, can propagate exceptions (see the
calldata-decoding counterexample), so the blanket never-raise policy does not
hold of the code. -/
theorem findLayoutInfoAtSlot_never_throws (slot : List Char)
    (layout : List StorageSlotInfo) (keys : List MappingKey)
    (hlay : ∀ i ∈ layout, isHexStr i.slot = true)
    (hkeys : ∀ k ∈ keys, isHexStr k.hex = true ∧ 2 < k.hex.length)
    (harr : ∀ i ∈ layout, i.encoding = Encoding.dynamicArray →
      ∀ k v, jsBigIntHex k = some v → v < 1000000 → (computeArraySlot i.slot v).isSome) :
    (findLayoutInfoAtSlot slot layout keys).isSome := by
  by_cases hl : layout.isEmpty = true
  · simp [findLayoutInfoAtSlot, hl]
  · by_cases hd : (directMatchesAt slot layout).isEmpty = false
    · simp [findLayoutInfoAtSlot, hl, hd]
    · have hd2 : (directMatchesAt slot layout).isEmpty = true := by
        cases h : (directMatchesAt slot layout).isEmpty
        · exact absurd h hd
        · rfl
      obtain ⟨r2, hr2⟩ := mappingPass_isSome slot (mappingRootsOf layout)
        (fun m hm => hlay m (List.mem_of_mem_filter hm)) keys
        (fun k hk => (hkeys k hk).1)
      obtain ⟨r4, hr4⟩ := arrayPass_isSome slot (arrayRootsOf layout)
        (fun a haa => harr a (List.mem_of_mem_filter haa)
          (by
            have := List.of_mem_filter haa
            simpa using this))
        keys hkeys
      have hr3 : nestedPass slot
          ((mappingRootsOf layout).filter (fun m => includesMapping m.valueType)) keys
          = some [] := by
        rw [nestedRoots_eq_nil]; rfl
      simp only [findLayoutInfoAtSlot, hl]
      rw [if_neg (by simp [hl])]
      rw [if_neg (by simp [hd2])]
      simp [hr2, hr3, hr4]
      split <;> simp

set_option maxRecDepth 1000000 in
set_option maxHeartbeats 4000000 in
/-- C9 (amended) witness: a one-mapping layout, one well-formed candidate, no
array roots. -/
theorem findLayoutInfoAtSlot_never_throws_witness :
    ((∀ i ∈ [({ label := "bal".data, slot := "0x01".data, encoding := Encoding.mapping,
                 valueType := some "t_uint256".data } : StorageSlotInfo)],
        isHexStr i.slot = true) ∧
     (∀ k ∈ [({ hex := "0x02".data } : MappingKey)],
        isHexStr k.hex = true ∧ 2 < k.hex.length)) ∧
    (findLayoutInfoAtSlot ("0x03".data)
      [{ label := "bal".data, slot := "0x01".data, encoding := Encoding.mapping,
         valueType := some "t_uint256".data }]
      [{ hex := "0x02".data }]).isSome = true :=
  ⟨⟨by decide, by decide⟩,
   findLayoutInfoAtSlot_never_throws _ _ _ (by decide) (by decide)
     (by
       intro i hi henc
       simp only [List.mem_singleton] at hi
       subst hi
       exact absurd henc (by decide))⟩

/-! ### C8: deduplication by hex, typed entries beat untyped ones -/

theorem mapSetKey_self_mem (m : List MappingKey) (k : MappingKey) : k ∈ mapSetKey m k := by
  induction m with
  | nil => simp [mapSetKey]
  | cons e rest ih =>
    by_cases hx : (e.hex == k.hex) = true
    · simp [mapSetKey, hx]
    · simp only [mapSetKey, if_neg hx]
      exact List.mem_cons_of_mem _ ih

theorem mapSetKey_hex_preserved (m : List MappingKey) (k e : MappingKey) (h : e ∈ m) :
    ∃ e' ∈ mapSetKey m k, e'.hex = e.hex := by
  induction m with
  | nil => simp at h
  | cons a rest ih =>
    by_cases hx : (a.hex == k.hex) = true
    · simp only [mapSetKey, if_pos hx]
      rcases List.mem_cons.mp h with h1 | h1
      · exact ⟨k, by simp, by rw [h1]; exact (beq_iff_eq.mp hx).symm⟩
      · exact ⟨e, by simp [h1], rfl⟩
    · simp only [mapSetKey, if_neg hx]
      rcases List.mem_cons.mp h with h1 | h1
      · exact ⟨a, by simp, by rw [h1]⟩
      · obtain ⟨e', he', hx'⟩ := ih h1
        exact ⟨e', List.mem_cons_of_mem _ he', hx'⟩

theorem mapSetKey_pairwise (m : List MappingKey) (k : MappingKey)
    (h : m.Pairwise (fun a b => a.hex ≠ b.hex)) :
    (mapSetKey m k).Pairwise (fun a b => a.hex ≠ b.hex) := by
  induction m with
  | nil => simp [mapSetKey]
  | cons e rest ih =>
    rcases List.pairwise_cons.mp h with ⟨he, hrest⟩
    by_cases hx : (e.hex == k.hex) = true
    · have hek : e.hex = k.hex := beq_iff_eq.mp hx
      simp only [mapSetKey, if_pos hx]
      apply List.pairwise_cons.mpr
      refine ⟨?_, hrest⟩
      intro b hb
      rw [← hek]
      exact he b hb
    · simp only [mapSetKey, if_neg hx]
      apply List.pairwise_cons.mpr
      constructor
      · intro b hb
        rcases mem_mapSetKey rest k b hb with h1 | h1
        · exact he b h1
        · subst h1
          intro hcon
          exact absurd (beq_iff_eq.mpr hcon) (by simpa using hx)
      · exact ih hrest

theorem mapSetKey_unique_at (m : List MappingKey) (k e : MappingKey)
    (hp : m.Pairwise (fun a b => a.hex ≠ b.hex))
    (he : e ∈ mapSetKey m k) (hx : e.hex = k.hex) : e = k := by
  induction m with
  | nil => simpa [mapSetKey] using he
  | cons a rest ih =>
    rcases List.pairwise_cons.mp hp with ⟨ha, hrest⟩
    by_cases hax : (a.hex == k.hex) = true
    · simp only [mapSetKey, if_pos hax] at he
      rcases List.mem_cons.mp he with h1 | h1
      · exact h1
      · exact absurd (by rw [hx, ← beq_iff_eq.mp hax]) (ne_comm.mp (ha e h1)).symm
    · simp only [mapSetKey, if_neg hax] at he
      rcases List.mem_cons.mp he with h1 | h1
      · subst h1
        exact absurd (beq_iff_eq.mpr hx) (by simpa using hax)
      · exact ih hrest h1

theorem dedupKeys_eq_foldl (keys : List MappingKey) :
    dedupKeys keys = keys.foldl dedupStep [] := rfl

theorem dedupStep_pairwise (m : List MappingKey) (k : MappingKey)
    (h : m.Pairwise (fun a b => a.hex ≠ b.hex)) :
    (dedupStep m k).Pairwise (fun a b => a.hex ≠ b.hex) := by
  unfold dedupStep
  split
  · exact mapSetKey_pairwise m k h
  · exact h

theorem foldl_dedupStep_pairwise (keys : List MappingKey) :
    ∀ m, m.Pairwise (fun a b => a.hex ≠ b.hex) →
      (keys.foldl dedupStep m).Pairwise (fun a b => a.hex ≠ b.hex) := by
  induction keys with
  | nil => intro m hm; exact hm
  | cons k ks ih =>
    intro m hm
    exact ih _ (dedupStep_pairwise m k hm)

theorem dedupKeys_pairwise (keys : List MappingKey) :
    (dedupKeys keys).Pairwise (fun a b => a.hex ≠ b.hex) := by
  rw [dedupKeys_eq_foldl]
  exact foldl_dedupStep_pairwise keys [] (by simp)

theorem dedupStep_hex_preserved (m : List MappingKey) (k e : MappingKey) (h : e ∈ m) :
    ∃ e' ∈ dedupStep m k, e'.hex = e.hex := by
  unfold dedupStep
  split
  · exact mapSetKey_hex_preserved m k e h
  · exact ⟨e, h, rfl⟩

theorem foldl_dedupStep_hex_preserved (keys : List MappingKey) :
    ∀ m e, e ∈ m → ∃ e' ∈ keys.foldl dedupStep m, e'.hex = e.hex := by
  induction keys with
  | nil => intro m e h; exact ⟨e, h, rfl⟩
  | cons k ks ih =>
    intro m e h
    obtain ⟨e1, he1, hx1⟩ := dedupStep_hex_preserved m k e h
    obtain ⟨e', he', hx'⟩ := ih _ e1 he1
    exact ⟨e', he', by rw [hx', hx1]⟩

theorem dedupKeys_hex_retained (keys : List MappingKey) :
    ∀ k ∈ keys, ∃ e ∈ dedupKeys keys, e.hex = k.hex := by
  rw [dedupKeys_eq_foldl]
  suffices hgen : ∀ (ks : List MappingKey) (m : List MappingKey) (k : MappingKey), k ∈ ks →
      ∃ e ∈ ks.foldl dedupStep m, e.hex = k.hex by
    intro k hk
    exact hgen keys [] k hk
  intro ks
  induction ks with
  | nil => intro m k hk; simp at hk
  | cons k0 rest ih =>
    intro m k hk
    rcases List.mem_cons.mp hk with h1 | h1
    · subst h1
      by_cases hc : (!(m.any (fun e => e.hex == k.hex)) || k.type.isSome) = true
      · have hmem : k ∈ dedupStep m k := by
          unfold dedupStep
          rw [if_pos hc]
          exact mapSetKey_self_mem m k
        simpa using foldl_dedupStep_hex_preserved rest (dedupStep m k) k hmem
      · have hany : (m.any (fun e => e.hex == k.hex)) = true := by
          cases h : m.any (fun e => e.hex == k.hex)
          · exfalso; apply hc; simp [h]
          · rfl
        obtain ⟨y, hy, hyx⟩ := List.any_eq_true.mp hany
        have hstep : dedupStep m k = m := by
          unfold dedupStep
          rw [if_neg hc]
        obtain ⟨e', he', hx'⟩ := foldl_dedupStep_hex_preserved rest (dedupStep m k) y
          (by rw [hstep]; exact hy)
        exact ⟨e', he', by rw [hx', beq_iff_eq.mp hyx]⟩
    · exact ih (dedupStep m k0) k h1

theorem dedupStep_typedAt (m : List MappingKey) (k : MappingKey) (h : List Char)
    (hq : TypedAt m h) : TypedAt (dedupStep m k) h := by
  obtain ⟨⟨e0, he0, hx0⟩, hall⟩ := hq
  by_cases hc : (!(m.any (fun e => e.hex == k.hex)) || k.type.isSome) = true
  · have hstep : dedupStep m k = mapSetKey m k := by
      unfold dedupStep
      rw [if_pos hc]
    rw [hstep]
    constructor
    · obtain ⟨e', he', hx'⟩ := mapSetKey_hex_preserved m k e0 he0
      exact ⟨e', he', by rw [hx', hx0]⟩
    · intro e he hx
      rcases mem_mapSetKey m k e he with h1 | h1
      · exact hall e h1 hx
      · rcases Bool.or_eq_true _ _ |>.mp hc with h2 | h2
        · exfalso
          have hany : m.any (fun y => y.hex == k.hex) = true :=
            List.any_eq_true.mpr ⟨e0, he0, beq_iff_eq.mpr (by rw [hx0, ← hx, h1])⟩
          rw [hany] at h2
          simp at h2
        · rw [h1]; exact h2
  · have hstep : dedupStep m k = m := by
      unfold dedupStep
      rw [if_neg hc]
    rw [hstep]
    exact ⟨⟨e0, he0, hx0⟩, hall⟩

theorem dedupStep_typedAt_new (m : List MappingKey) (k : MappingKey)
    (hp : m.Pairwise (fun a b => a.hex ≠ b.hex)) (ht : k.type.isSome = true) :
    TypedAt (dedupStep m k) k.hex := by
  have hc : (!(m.any (fun e => e.hex == k.hex)) || k.type.isSome) = true := by
    rw [ht]; simp
  unfold dedupStep
  rw [if_pos hc]
  constructor
  · exact ⟨k, mapSetKey_self_mem m k, rfl⟩
  · intro e he hx
    have : e = k := mapSetKey_unique_at m k e hp he hx
    rw [this]; exact ht

theorem foldl_dedupStep_typedAt (keys : List MappingKey) :
    ∀ m h, m.Pairwise (fun a b => a.hex ≠ b.hex) →
      (TypedAt m h ∨ ∃ k ∈ keys, k.hex = h ∧ k.type.isSome = true) →
      TypedAt (keys.foldl dedupStep m) h := by
  induction keys with
  | nil =>
    intro m h _ hq
    rcases hq with hq | hq
    · exact hq
    · obtain ⟨k, hk, _⟩ := hq
      simp at hk
  | cons k0 rest ih =>
    intro m h hp hq
    have hp' : (dedupStep m k0).Pairwise (fun a b => a.hex ≠ b.hex) :=
      dedupStep_pairwise m k0 hp
    rcases hq with hq | hq
    · exact ih _ h hp' (Or.inl (dedupStep_typedAt m k0 h hq))
    · obtain ⟨k, hk, hkx, hkt⟩ := hq
      rcases List.mem_cons.mp hk with h1 | h1
      · subst h1
        subst hkx
        exact ih _ _ hp' (Or.inl (dedupStep_typedAt_new m k hp hkt))
      · exact ih _ h hp' (Or.inr ⟨k, h1, hkx, hkt⟩)

/-- C8: the extractor's output is the deduplication of everything collected:
no two returned candidates share a hex form; every collected hex survives; and
whenever a typed candidate with some hex was collected, every returned entry
with that hex is typed. -/
theorem extractPotentialKeys_dedup (trace : TraceInput) (addrs : List (List Char))
    (abis : List AbiFunction) (txd : Option (List Char)) (collected : List MappingKey)
    (hc : collectPotentialKeys trace addrs abis txd = some collected) :
    extractPotentialKeys trace addrs abis txd = some (dedupKeys collected) ∧
    (dedupKeys collected).Pairwise (fun a b => a.hex ≠ b.hex) ∧
    (∀ k ∈ collected, ∃ e ∈ dedupKeys collected, e.hex = k.hex) ∧
    (∀ k ∈ collected, k.type.isSome = true →
      ∀ e ∈ dedupKeys collected, e.hex = k.hex → e.type.isSome = true) := by
  refine ⟨by simp [extractPotentialKeys, hc], dedupKeys_pairwise collected,
    dedupKeys_hex_retained collected, ?_⟩
  intro k hk hkt e he hex
  have hq : TypedAt (dedupKeys collected) k.hex := by
    rw [dedupKeys_eq_foldl]
    exact foldl_dedupStep_typedAt collected [] k.hex (by simp)
      (Or.inr ⟨k, hk, rfl, hkt⟩)
  exact hq.2 e he hex

/-- C8 witness: a typed address key and an untyped stack value sharing the same
32-byte hex form. -/
theorem extractPotentialKeys_dedup_witness :
    collectPotentialKeys
        { uniqueStackValues :=
            some ["0x0000000000000000000000001111111111111111111111111111111111111111".data] }
        ["0x1111111111111111111111111111111111111111".data] [] none
      = some
        [{ hex := "0x0000000000000000000000001111111111111111111111111111111111111111".data,
           decoded := some "0x1111111111111111111111111111111111111111".data,
           type := some "address".data },
         { hex := "0x0000000000000000000000001111111111111111111111111111111111111111".data,
           type := none }] ∧
    (extractPotentialKeys
        { uniqueStackValues :=
            some ["0x0000000000000000000000001111111111111111111111111111111111111111".data] }
        ["0x1111111111111111111111111111111111111111".data] [] none
      = some (dedupKeys
        [{ hex := "0x0000000000000000000000001111111111111111111111111111111111111111".data,
           decoded := some "0x1111111111111111111111111111111111111111".data,
           type := some "address".data },
         { hex := "0x0000000000000000000000001111111111111111111111111111111111111111".data,
           type := none }]) ∧
     (dedupKeys
        [{ hex := "0x0000000000000000000000001111111111111111111111111111111111111111".data,
           decoded := some "0x1111111111111111111111111111111111111111".data,
           type := some "address".data },
         { hex := "0x0000000000000000000000001111111111111111111111111111111111111111".data,
           type := none }]).Pairwise (fun a b => a.hex ≠ b.hex) ∧
     (∀ k ∈
        [{ hex := "0x0000000000000000000000001111111111111111111111111111111111111111".data,
           decoded := some "0x1111111111111111111111111111111111111111".data,
           type := some "address".data },
         ({ hex := "0x0000000000000000000000001111111111111111111111111111111111111111".data,
            type := none } : MappingKey)],
        ∃ e ∈ dedupKeys
          [{ hex := "0x0000000000000000000000001111111111111111111111111111111111111111".data,
             decoded := some "0x1111111111111111111111111111111111111111".data,
             type := some "address".data },
           { hex := "0x0000000000000000000000001111111111111111111111111111111111111111".data,
             type := none }], e.hex = k.hex) ∧
     (∀ k ∈
        [{ hex := "0x0000000000000000000000001111111111111111111111111111111111111111".data,
           decoded := some "0x1111111111111111111111111111111111111111".data,
           type := some "address".data },
         ({ hex := "0x0000000000000000000000001111111111111111111111111111111111111111".data,
            type := none } : MappingKey)],
        k.type.isSome = true →
          ∀ e ∈ dedupKeys
            [{ hex := "0x0000000000000000000000001111111111111111111111111111111111111111".data,
               decoded := some "0x1111111111111111111111111111111111111111".data,
               type := some "address".data },
             { hex := "0x0000000000000000000000001111111111111111111111111111111111111111".data,
               type := none }], e.hex = k.hex → e.type.isSome = true)) :=
  ⟨by decide, extractPotentialKeys_dedup _ _ _ _ _ (by decide)⟩

/-! ### C1: `computeMappingSlot` hashes key-then-base as 32-byte words -/

theorem hexPairsToBytes_length : ∀ (l : List Char) (bs : List Nat),
    hexPairsToBytes l = some bs → bs.length = l.length / 2
  | [], bs, h => by
    simp only [hexPairsToBytes] at h
    cases h
    rfl
  | [c], bs, h => by simp [hexPairsToBytes] at h
  | c1 :: c2 :: rest, bs, h => by
    simp only [hexPairsToBytes] at h
    by_cases hv : (isHexDigit c1 && isHexDigit c2) = true
    · rw [if_pos hv] at h
      cases hr : hexPairsToBytes rest with
      | none => rw [hr] at h; simp at h
      | some bs' =>
        rw [hr] at h
        have hbs : (16 * hexVal c1 + hexVal c2) :: bs' = bs := by simpa using h
        have hlen := hexPairsToBytes_length rest bs' hr
        rw [← hbs]
        simp only [List.length_cons, hlen]
        omega
    · rw [if_neg hv] at h
      simp at h

theorem hexPairsToBytes_append : ∀ (l1 : List Char), l1.length % 2 = 0 →
    ∀ l2, hexPairsToBytes (l1 ++ l2)
      = (hexPairsToBytes l1).bind (fun b1 => (hexPairsToBytes l2).map (fun b2 => b1 ++ b2))
  | [], _, l2 => by
    have h1 : hexPairsToBytes ([] ++ l2) = hexPairsToBytes l2 := rfl
    have h0 : hexPairsToBytes ([] : List Char) = some [] := rfl
    rw [h1, h0, Option.some_bind]
    cases hl : hexPairsToBytes l2 with
    | none => rfl
    | some b => simp
  | [c], h, _ => by simp at h
  | c1 :: c2 :: rest, h, l2 => by
    have h2 : rest.length % 2 = 0 := by
      simp only [List.length_cons] at h
      omega
    have ih := hexPairsToBytes_append rest h2 l2
    by_cases hv : (isHexDigit c1 && isHexDigit c2) = true
    · simp only [List.cons_append, hexPairsToBytes]
      rw [if_pos hv, if_pos hv]
      simp only [List.append_eq]
      rw [ih]
      cases hr : hexPairsToBytes rest with
      | none => simp
      | some b1 =>
        cases hl : hexPairsToBytes l2 with
        | none => simp
        | some b2 => simp
    · simp only [List.cons_append, hexPairsToBytes]
      rw [if_neg hv, if_neg hv]
      simp

/-- C1: for every 32-byte base slot and every 32-byte key (66-character hex
words), `computeMappingSlot` returns the keccak256 of the byte concatenation of
the key followed by the base slot, key first, each contributing exactly 32
bytes. -/
theorem computeMappingSlot_is_keccak (baseSlot : List Char) (key : MappingKey)
    (hk : isHexStr key.hex = true ∧ key.hex.length = 66)
    (hb : isHexStr baseSlot = true ∧ baseSlot.length = 66) :
    ∃ kb bb, hexToBytesViem key.hex = some kb ∧ hexToBytesViem baseSlot = some bb ∧
      kb.length = 32 ∧ bb.length = 32 ∧
      computeMappingSlot baseSlot key
        = some ('0' :: 'x' :: bytesToHexChars (keccak256Bytes (kb ++ bb))) := by
  obtain ⟨kd, hkd, hkdall⟩ := isHexStr_shape key.hex hk.1
  obtain ⟨bd, hbd, hbdall⟩ := isHexStr_shape baseSlot hb.1
  have hkdlen : kd.length = 64 := by
    have := hk.2
    rw [hkd] at this
    simpa using this
  have hbdlen : bd.length = 64 := by
    have := hb.2
    rw [hbd] at this
    simpa using this
  obtain ⟨kb, hkb⟩ := hexPairsToBytes_isSome kd hkdall (by omega)
  obtain ⟨bb, hbb⟩ := hexPairsToBytes_isSome bd hbdall (by omega)
  have hkblen : kb.length = 32 := by
    have := hexPairsToBytes_length kd kb hkb
    omega
  have hbblen : bb.length = 32 := by
    have := hexPairsToBytes_length bd bb hbb
    omega
  have hkbytes : hexToBytesViem key.hex = some kb := by
    rw [hkd]
    simp only [hexToBytesViem, List.drop_succ_cons, List.drop_zero]
    rw [if_neg (by omega)]
    exact hkb
  have hbbytes : hexToBytesViem baseSlot = some bb := by
    rw [hbd]
    simp only [hexToBytesViem, List.drop_succ_cons, List.drop_zero]
    rw [if_neg (by omega)]
    exact hbb
  refine ⟨kb, bb, hkbytes, hbbytes, hkblen, hbblen, ?_⟩
  rw [computeMappingSlot, hkd, hbd, replaceFirst0x_prefixed, replaceFirst0x_prefixed]
  simp only [keccak256Hex, hexToBytesViem, List.drop_succ_cons, List.drop_zero]
  rw [if_neg (by simp [List.length_append]; omega)]
  rw [hexPairsToBytes_append kd (by omega) bd, hkb, hbb]
  rfl

/-- C1 witness: the all-zero key and base-slot words. -/
theorem computeMappingSlot_is_keccak_witness :
    (isHexStr
        ({ hex := ("0x" ++ String.mk (List.replicate 64 '0')).data,
           type := none } : MappingKey).hex = true ∧
      ({ hex := ("0x" ++ String.mk (List.replicate 64 '0')).data,
         type := none } : MappingKey).hex.length = 66) ∧
    (∃ kb bb,
      hexToBytesViem ({ hex := ("0x" ++ String.mk (List.replicate 64 '0')).data,
                        type := none } : MappingKey).hex = some kb ∧
      hexToBytesViem (("0x" ++ String.mk (List.replicate 64 '0')).data) = some bb ∧
      kb.length = 32 ∧ bb.length = 32 ∧
      computeMappingSlot (("0x" ++ String.mk (List.replicate 64 '0')).data)
          { hex := ("0x" ++ String.mk (List.replicate 64 '0')).data, type := none }
        = some ('0' :: 'x' :: bytesToHexChars (keccak256Bytes (kb ++ bb)))) :=
  ⟨⟨by decide, by decide⟩,
   computeMappingSlot_is_keccak _ _ ⟨by decide, by decide⟩ ⟨by decide, by decide⟩⟩

/-! ### C10: the legacy `normalizeSlot` is canonicalizing and idempotent -/

theorem hexDigit_pointwise (P : Char → Prop) [DecidablePred P]
    (hall : ∀ n, n < 103 →
      ((48 ≤ n && n ≤ 57) || (97 ≤ n && n ≤ 102) || (65 ≤ n && n ≤ 70)) = true →
      P (Char.ofNat n))
    (c : Char) (hc : isHexDigit c = true) : P c := by
  have hc' : ((48 ≤ c.toNat && c.toNat ≤ 57) || (97 ≤ c.toNat && c.toNat ≤ 102)
      || (65 ≤ c.toNat && c.toNat ≤ 70)) = true := hc
  have hlt : c.toNat < 103 := by
    simp only [Bool.or_eq_true, Bool.and_eq_true, decide_eq_true_eq] at hc'
    omega
  have hp := hall c.toNat hlt hc'
  rwa [Char.ofNat_toNat] at hp

theorem hexVal_lt_16 (c : Char) (hc : isHexDigit c = true) : hexVal c < 16 :=
  hexDigit_pointwise (fun c => hexVal c < 16) (by decide) c hc

theorem toLowerCh_hexDigit (c : Char) (hc : isHexDigit c = true) :
    toLowerCh c = hexChar (hexVal c) :=
  hexDigit_pointwise (fun c => toLowerCh c = hexChar (hexVal c)) (by decide) c hc

theorem hexVal_ne_zero (c : Char) (hc : isHexDigit c = true) :
    c ≠ '0' → hexVal c ≠ 0 :=
  hexDigit_pointwise (fun c => c ≠ '0' → hexVal c ≠ 0) (by decide) c hc

theorem hexChar_canon : ∀ v : Nat, v < 16 →
    hexChar (hexVal (hexChar v)) = hexChar v ∧ hexVal (hexChar v) < 16 ∧
    isHexDigit (hexChar v) = true ∧ toLowerCh (hexChar v) = hexChar v ∧
    (v ≠ 0 → hexChar v ≠ '0') := by decide

theorem hexDigitsLE_eq_digits (n : Nat) :
    hexDigitsLE n = (Nat.digits 16 n).map hexChar := by
  induction n using Nat.strong_induction_on with
  | _ n ih =>
    by_cases h : n = 0
    · subst h; simp [hexDigitsLE]
    · rw [hexDigitsLE]
      rw [dif_neg h]
      rw [Nat.digits_def' (by norm_num : 1 < 16) (Nat.pos_of_ne_zero h)]
      rw [List.map_cons]
      congr 1
      exact ih (n / 16) (Nat.div_lt_self (Nat.pos_of_ne_zero h) (by norm_num))

theorem foldl_digitsVal_eq_ofDigits (l : List Char) :
    ∀ acc, l.foldl (fun a c => 16 * a + hexVal c) acc
      = acc * 16 ^ l.length + Nat.ofDigits 16 (l.reverse.map (fun c => (hexVal c : Nat))) := by
  induction l with
  | nil => intro acc; simp [Nat.ofDigits]
  | cons c rest ih =>
    intro acc
    simp only [List.foldl_cons, List.reverse_cons, List.map_append, List.map_cons,
      List.map_nil, List.length_cons]
    rw [ih (16 * acc + hexVal c)]
    rw [Nat.ofDigits_append]
    simp only [Nat.ofDigits_singleton, List.length_map, List.length_reverse]
    ring

theorem digitsVal_eq_ofDigits (l : List Char) :
    digitsVal l = Nat.ofDigits 16 (l.reverse.map (fun c => (hexVal c : Nat))) := by
  rw [digitsVal, foldl_digitsVal_eq_ofDigits l 0]
  simp

theorem canonical_digits_unique (zs : List Char)
    (hne : zs ≠ [])
    (hcanon : ∀ m ∈ zs, hexChar (hexVal m) = m ∧ hexVal m < 16)
    (hhead : zs.head? ≠ some '0') :
    zs = minHexDigits (digitsVal zs) := by
  have hdig : Nat.digits 16 (digitsVal zs) = zs.reverse.map (fun c => (hexVal c : Nat)) := by
    rw [digitsVal_eq_ofDigits]
    apply Nat.digits_ofDigits 16 (by norm_num)
    · intro l hl
      obtain ⟨m, hm, rfl⟩ := List.mem_map.mp hl
      exact (hcanon m (List.mem_reverse.mp hm)).2
    · intro hnil
      cases zs with
      | nil => exact absurd rfl hne
      | cons d rest =>
        have hL : ((d :: rest).reverse.map (fun c => (hexVal c : Nat)))
            = (rest.reverse.map fun c => (hexVal c : Nat)) ++ [hexVal d] := by
          simp [List.reverse_cons]
        have h1 : (((d :: rest).reverse.map (fun c => (hexVal c : Nat)))).getLast?
            = some (hexVal d) := by
          rw [hL]
          exact List.getLast?_concat _
        have h2 := List.getLast?_eq_getLast _ hnil
        rw [h1] at h2
        have hgl : (((d :: rest).reverse.map (fun c => (hexVal c : Nat)))).getLast hnil
            = hexVal d := (Option.some_inj.mp h2).symm
        rw [hgl]
        intro h0
        have hc := hcanon d (by simp)
        have hd0 : d = '0' := by
          rw [← hc.1, h0]
          rfl
        rw [hd0] at hhead
        simp at hhead
  have hn0 : digitsVal zs ≠ 0 := by
    intro h0
    rw [h0] at hdig
    simp only [Nat.digits_zero] at hdig
    cases zs with
    | nil => exact absurd rfl hne
    | cons d rest => simp at hdig
  rw [minHexDigits, if_neg hn0, hexDigitsLE_eq_digits, hdig, List.map_map]
  have hid : zs.reverse.map (hexChar ∘ fun c => (hexVal c : Nat)) = zs.reverse.map id := by
    apply List.map_congr_left
    intro a ha
    exact (hcanon a (List.mem_reverse.mp ha)).1
  rw [hid, List.map_id, List.reverse_reverse]

theorem hexVal_toLowerCh (c : Char) (hc : isHexDigit c = true) :
    hexVal (toLowerCh c) = hexVal c :=
  hexDigit_pointwise (fun c => hexVal (toLowerCh c) = hexVal c) (by decide) c hc

theorem digitsVal_map_toLower (body : List Char) (hall : body.all isHexDigit = true) :
    digitsVal (body.map toLowerCh) = digitsVal body := by
  suffices hgen : ∀ acc, (body.map toLowerCh).foldl (fun a c => 16 * a + hexVal c) acc
      = body.foldl (fun a c => 16 * a + hexVal c) acc from hgen 0
  induction body with
  | nil => intro acc; rfl
  | cons c rest ih =>
    intro acc
    simp only [List.all_cons, Bool.and_eq_true] at hall
    simp only [List.map_cons, List.foldl_cons]
    rw [hexVal_toLowerCh c hall.1]
    exact ih hall.2 _

theorem digitsVal_dropWhile_zeros (l : List Char) :
    digitsVal (l.dropWhile (fun c => c == '0')) = digitsVal l := by
  induction l with
  | nil => rfl
  | cons c rest ih =>
    by_cases hc : (c == '0') = true
    · have hc' : c = '0' := beq_iff_eq.mp hc
      rw [List.dropWhile_cons_of_pos (by simpa using hc)]
      rw [ih]
      subst hc'
      simp [digitsVal, hexVal]
    · rw [List.dropWhile_cons_of_neg (by simpa using hc)]

theorem dropWhile_head_false {p : Char → Bool} :
    ∀ (l : List Char) (d : Char) (rest : List Char),
      l.dropWhile p = d :: rest → p d = false := by
  intro l
  induction l with
  | nil => intro d rest h; simp at h
  | cons c t ih =>
    intro d rest h
    by_cases hc : p c = true
    · rw [List.dropWhile_cons_of_pos hc] at h
      exact ih d rest h
    · rw [List.dropWhile_cons_of_neg hc] at h
      cases h
      exact Bool.eq_false_iff.mpr hc

theorem mem_minHexDigits_canon (n : Nat) :
    ∀ c ∈ minHexDigits n, isHexDigit c = true ∧ toLowerCh c = c ∧
      hexChar (hexVal c) = c ∧ hexVal c < 16 := by
  intro c hc
  by_cases h0 : n = 0
  · subst h0
    have h00 : minHexDigits 0 = ['0'] := rfl
    rw [h00, List.mem_singleton] at hc
    subst hc
    refine ⟨by decide, by decide, by decide, by decide⟩
  · rw [minHexDigits, if_neg h0, hexDigitsLE_eq_digits] at hc
    rw [List.mem_reverse] at hc
    obtain ⟨d, hd, rfl⟩ := List.mem_map.mp hc
    have hdlt : d < 16 := Nat.digits_lt_base (by norm_num) hd
    obtain ⟨h1, h2, h3, h4, _⟩ := hexChar_canon d hdlt
    exact ⟨h3, h4, h1, h2⟩

theorem digitsVal_minHexDigits (n : Nat) : digitsVal (minHexDigits n) = n := by
  by_cases h0 : n = 0
  · subst h0; decide
  · rw [minHexDigits, if_neg h0, hexDigitsLE_eq_digits]
    rw [digitsVal_eq_ofDigits, List.reverse_reverse, List.map_map]
    have hmap : (Nat.digits 16 n).map ((fun c => (hexVal c : Nat)) ∘ hexChar)
        = (Nat.digits 16 n).map id := by
      apply List.map_congr_left
      intro d hd
      have hdlt : d < 16 := Nat.digits_lt_base (by norm_num) hd
      have := hexVal_hexChar d hdlt
      simpa using this
    rw [hmap, List.map_id]
    exact Nat.ofDigits_digits 16 n

theorem minHexDigits_head_ne_zero (n : Nat) (h0 : n ≠ 0) :
    (minHexDigits n).head? ≠ some '0' := by
  rw [minHexDigits, if_neg h0, hexDigitsLE_eq_digits]
  have hnil : Nat.digits 16 n ≠ [] := Nat.digits_ne_nil_iff_ne_zero.mpr h0
  have hlast := Nat.getLast_digit_ne_zero 16 h0
  have hgl : (Nat.digits 16 n).getLast? = some ((Nat.digits 16 n).getLast hnil) :=
    List.getLast?_eq_getLast _ hnil
  rw [List.head?_reverse, List.getLast?_map, hgl]
  intro hcontra
  have heq : hexChar ((Nat.digits 16 n).getLast hnil) = '0' := by
    simpa using hcontra
  have hmem : (Nat.digits 16 n).getLast hnil ∈ Nat.digits 16 n := List.getLast_mem hnil
  have hlt : (Nat.digits 16 n).getLast hnil < 16 := Nat.digits_lt_base (by norm_num) hmem
  exact (hexChar_canon _ hlt).2.2.2.2 hlast heq

theorem clean_of_body (body : List Char) (hall : body.all isHexDigit = true) :
    (if ('0' :: 'x' :: ((body.map toLowerCh).dropWhile (fun c => c == '0'))) = "0x".data
      then "0x0".data
      else '0' :: 'x' :: ((body.map toLowerCh).dropWhile (fun c => c == '0')))
    = canonHex (digitsVal body) := by
  have hlbcanon : ∀ m ∈ body.map toLowerCh, hexChar (hexVal m) = m ∧ hexVal m < 16 := by
    intro m hm
    obtain ⟨c, hc, rfl⟩ := List.mem_map.mp hm
    have hcd : isHexDigit c = true := List.all_eq_true.mp hall c hc
    rw [toLowerCh_hexDigit c hcd]
    obtain ⟨h1, h2, _, _, _⟩ := hexChar_canon (hexVal c) (hexVal_lt_16 c hcd)
    exact ⟨h1, h2⟩
  have hval : digitsVal ((body.map toLowerCh).dropWhile (fun c => c == '0'))
      = digitsVal body := by
    rw [digitsVal_dropWhile_zeros, digitsVal_map_toLower body hall]
  cases hzs : (body.map toLowerCh).dropWhile (fun c => c == '0') with
  | nil =>
    rw [if_pos rfl]
    rw [hzs] at hval
    have h0 : digitsVal body = 0 := by rw [← hval]; rfl
    rw [h0]
    rfl
  | cons d rest =>
    rw [hzs] at hval
    rw [if_neg (by
      have h0x : "0x".data = ['0', 'x'] := rfl
      rw [h0x]
      simp)]
    have hcanon2 : ∀ m ∈ d :: rest, hexChar (hexVal m) = m ∧ hexVal m < 16 := by
      have hsub : List.Sublist (d :: rest) (body.map toLowerCh) := by
        rw [← hzs]
        exact List.dropWhile_sublist _
      intro m hm
      exact hlbcanon m (hsub.subset hm)
    have hhead : (d :: rest).head? ≠ some '0' := by
      have hfalse := dropWhile_head_false (body.map toLowerCh) d rest hzs
      simp only [List.head?_cons]
      intro hcon
      have hd0 : d = '0' := Option.some_inj.mp hcon
      rw [hd0] at hfalse
      simp at hfalse
    have huniq := canonical_digits_unique (d :: rest) (by simp) hcanon2 hhead
    show '0' :: 'x' :: d :: rest = '0' :: 'x' :: minHexDigits (digitsVal body)
    rw [← hval]
    exact congrArg (fun l => '0' :: 'x' :: l) huniq

theorem normalizeSlot_eq_canonHex (inp : SlotInput) (h : ValidSlot inp = true) :
    normalizeSlot inp = canonHex (slotVal inp) := by
  cases inp with
  | num n =>
    by_cases h0 : n = 0
    · subst h0; rfl
    · have hall : (minHexDigits n).all isHexDigit = true := by
        rw [List.all_eq_true]
        intro c hc
        exact (mem_minHexDigits_canon n c hc).1
      have hb : (((toHexNat n).map toLowerCh).drop 2) = (minHexDigits n).map toLowerCh := rfl
      simp only [normalizeSlot]
      rw [if_neg h0, hb, clean_of_body (minHexDigits n) hall]
      simp only [slotVal]
      rw [digitsVal_minHexDigits]
  | str s =>
    cases s with
    | nil => rfl
    | cons c0 srest =>
      have hvs : (drop0xAnchored (c0 :: srest)).all isHexDigit = true := h
      have hvx : (if isHexStr (c0 :: srest) then (c0 :: srest)
          else '0' :: 'x' :: drop0xAnchored (c0 :: srest))
          = '0' :: 'x' :: drop0xAnchored (c0 :: srest) := by
        by_cases hhs : isHexStr (c0 :: srest) = true
        · rw [if_pos hhs]
          obtain ⟨rest, heq, _⟩ := isHexStr_shape _ hhs
          rw [heq]
          have hda : drop0xAnchored ('0' :: 'x' :: rest) = rest := by
            simp [drop0xAnchored]
          rw [hda]
        · rw [if_neg hhs]
      simp only [normalizeSlot]
      rw [if_neg (by simp), hvx]
      have hdrop : ((('0' :: 'x' :: drop0xAnchored (c0 :: srest)).map toLowerCh).drop 2)
          = (drop0xAnchored (c0 :: srest)).map toLowerCh := rfl
      rw [hdrop, clean_of_body _ hvs]
      rfl

/-- C10: on valid slot denotations (numbers, and strings of hex digits with an
optional `0x` prefix), `normalizeSlot` produces the canonical minimal
lower-case `0x`-prefixed form of the denoted value (`0x0` for zero), is
idempotent on its own output, and sends any two inputs denoting the same value
to the same string — the equality the resolver's direct-slot comparison uses. -/
theorem normalizeSlot_canonical (inp : SlotInput) (h : ValidSlot inp = true) :
    normalizeSlot inp = canonHex (slotVal inp) ∧
    normalizeSlot (SlotInput.str (normalizeSlot inp)) = normalizeSlot inp ∧
    (∀ inp2, ValidSlot inp2 = true → slotVal inp2 = slotVal inp →
      normalizeSlot inp2 = normalizeSlot inp) := by
  have hM := normalizeSlot_eq_canonHex inp h
  have hda : drop0xAnchored (canonHex (slotVal inp)) = minHexDigits (slotVal inp) := by
    simp [canonHex, drop0xAnchored]
  refine ⟨hM, ?_, ?_⟩
  · rw [hM]
    have hvalid : ValidSlot (SlotInput.str (canonHex (slotVal inp))) = true := by
      show (drop0xAnchored (canonHex (slotVal inp))).all isHexDigit = true
      rw [hda, List.all_eq_true]
      intro c hc
      exact (mem_minHexDigits_canon _ c hc).1
    rw [normalizeSlot_eq_canonHex _ hvalid]
    congr 1
    show digitsVal (drop0xAnchored (canonHex (slotVal inp))) = slotVal inp
    rw [hda, digitsVal_minHexDigits]
  · intro inp2 h2 hval
    rw [normalizeSlot_eq_canonHex inp2 h2, hM, hval]

/-- C10 witness: the upper-case, zero-padded slot string `0x00AB`. -/
theorem normalizeSlot_canonical_witness :
    ValidSlot (SlotInput.str "0x00AB".data) = true ∧
    (normalizeSlot (SlotInput.str "0x00AB".data)
        = canonHex (slotVal (SlotInput.str "0x00AB".data)) ∧
     normalizeSlot (SlotInput.str (normalizeSlot (SlotInput.str "0x00AB".data)))
        = normalizeSlot (SlotInput.str "0x00AB".data) ∧
     (∀ inp2, ValidSlot inp2 = true →
        slotVal inp2 = slotVal (SlotInput.str "0x00AB".data) →
        normalizeSlot inp2 = normalizeSlot (SlotInput.str "0x00AB".data))) :=
  ⟨by decide, normalizeSlot_canonical _ (by decide)⟩
